import Mathlib

/-!
# Verification of the uSTM32Template shell core

Shallow embedding of the shell engine of the uSTM32Template repository
(input editor, ANSI key decoder, autocomplete, history ring buffer,
command dispatcher) together with proofs about the properties stated in
its specification.

Rust strings are modelled as lists of bytes (`List Nat`, each value a
`u8`), fixed-capacity `heapless` containers as lists together with an
explicit capacity parameter, and `usize`/`u16` arithmetic as `Nat` with
explicit `% _` where the source wraps.  Fallible operations return
`Option`/`Except`/`Bool × _` exactly where the source does.
-/

namespace UShell

/-- Rust byte strings (`&str` / `&[u8]`) are byte lists. -/
abbrev Bytes := List Nat

/-- Literal helper: the bytes of an ASCII string literal. -/
def str2bytes (s : String) : Bytes := s.data.map Char.toNat

/-- Model of `char::is_whitespace` restricted to single bytes (ASCII
whitespace: space and 0x09..0x0D), as used by Rust's `str::trim`. -/
def isWsB (b : Nat) : Bool := b == 32 || (9 ≤ b && b ≤ 13)

/-- Model of `str::trim`: drop whitespace from both ends. -/
def trimBytes (s : Bytes) : Bytes :=
  ((s.dropWhile isWsB).reverse.dropWhile isWsB).reverse

/-! ## Input buffer (ushell_input/src/input/buffer.rs, `InputBuffer<IML>`)

The `[char; IML]` backing array is a `List Nat` of length `IML`; the
`for` loops that shift characters become folds over index ranges, in the
same iteration order as the source. -/

/-- State of `InputBuffer<IML>`: backing array, `length`, `cursor_pos`. -/
structure InputBuffer where
  buffer : List Nat
  length : Nat
  cursorPos : Nat
  deriving Repr, DecidableEq

/-- `InputBuffer::new()`. -/
def InputBuffer.new (IML : Nat) : InputBuffer :=
  { buffer := List.replicate IML 0, length := 0, cursorPos := 0 }

/-- `InputBuffer::insert`: shift `[cursor..len)` right (descending loop),
place `ch` at the cursor; fails when the buffer is full. -/
def InputBuffer.insert (IML : Nat) (b : InputBuffer) (ch : Nat) : Bool × InputBuffer :=
  if b.length ≥ IML then (false, b)
  else
    let buf := ((List.range (b.length - b.cursorPos)).reverse).foldl
      (fun d k => d.set (b.cursorPos + k + 1) (d.getD (b.cursorPos + k) 0)) b.buffer
    (true, { buffer := buf.set b.cursorPos ch,
             length := b.length + 1, cursorPos := b.cursorPos + 1 })

/-- `InputBuffer::backspace`: shift `[cursor..len)` left (ascending loop);
fails when the cursor is at column 0. -/
def InputBuffer.backspace (b : InputBuffer) : Bool × InputBuffer :=
  if b.cursorPos = 0 then (false, b)
  else
    let buf := (List.range (b.length - b.cursorPos)).foldl
      (fun d k => d.set (b.cursorPos + k - 1) (d.getD (b.cursorPos + k) 0)) b.buffer
    (true, { buffer := buf.set (b.length - 1) 0,
             length := b.length - 1, cursorPos := b.cursorPos - 1 })

/-- `InputBuffer::move_left`. -/
def InputBuffer.moveLeft (b : InputBuffer) : InputBuffer :=
  if b.cursorPos > 0 then { b with cursorPos := b.cursorPos - 1 } else b

/-- `InputBuffer::move_right`. -/
def InputBuffer.moveRight (b : InputBuffer) : InputBuffer :=
  if b.cursorPos < b.length then { b with cursorPos := b.cursorPos + 1 } else b

/-- `InputBuffer::move_home`. -/
def InputBuffer.moveHome (b : InputBuffer) : InputBuffer :=
  { b with cursorPos := 0 }

/-- `InputBuffer::move_end`. -/
def InputBuffer.moveEnd (b : InputBuffer) : InputBuffer :=
  { b with cursorPos := b.length }

/-- `InputBuffer::delete_at_cursor`: shift `(cursor..len)` left. -/
def InputBuffer.deleteAtCursor (b : InputBuffer) : InputBuffer :=
  if b.cursorPos < b.length then
    let buf := (List.range (b.length - 1 - b.cursorPos)).foldl
      (fun d k => d.set (b.cursorPos + k) (d.getD (b.cursorPos + k + 1) 0)) b.buffer
    { buffer := buf.set (b.length - 1) 0,
      length := b.length - 1, cursorPos := b.cursorPos }
  else b

/-- `InputBuffer::delete`: `delete_at_cursor` plus a success flag. -/
def InputBuffer.delete (b : InputBuffer) : Bool × InputBuffer :=
  if b.cursorPos < b.length then (true, b.deleteAtCursor) else (false, b)

/-- `InputBuffer::clear`. -/
def InputBuffer.clear (b : InputBuffer) : InputBuffer :=
  { buffer := (List.range b.length).foldl (fun d i => d.set i 0) b.buffer,
    length := 0, cursorPos := 0 }

/-- `InputBuffer::overwrite`: replace the contents with the first
`min(IML, |input|)` bytes of `input`, cursor at the end. -/
def InputBuffer.overwrite (IML : Nat) (b : InputBuffer) (input : Bytes) : InputBuffer :=
  let newLen := min input.length IML
  let buf := (List.range newLen).foldl
    (fun d i => d.set i (input.getD i 0)) b.buffer
  let buf := (List.range (b.length - newLen)).foldl
    (fun d k => d.set (newLen + k) 0) buf
  { buffer := buf, length := newLen, cursorPos := newLen }

/-- `InputBuffer::delete_to_start`: copy `[cursor..len)` to the front. -/
def InputBuffer.deleteToStart (b : InputBuffer) : InputBuffer :=
  if b.cursorPos = 0 then b
  else
    let shift := b.length - b.cursorPos
    let buf := (List.range shift).foldl
      (fun d i => d.set i (d.getD (b.cursorPos + i) 0)) b.buffer
    let buf := (List.range (b.length - shift)).foldl
      (fun d k => d.set (shift + k) 0) buf
    { buffer := buf, length := shift, cursorPos := 0 }

/-- `InputBuffer::delete_to_end`. -/
def InputBuffer.deleteToEnd (b : InputBuffer) : InputBuffer :=
  if b.cursorPos ≥ b.length then b
  else
    { buffer := (List.range (b.length - b.cursorPos)).foldl
        (fun d k => d.set (b.cursorPos + k) 0) b.buffer,
      length := b.cursorPos, cursorPos := b.cursorPos }

/-- `InputBuffer::to_string` (the live contents). -/
def InputBuffer.contents (b : InputBuffer) : Bytes := b.buffer.take b.length

/-- One editor operation, as dispatched by the shell loop. -/
inductive BufOp where
  | ins (c : Nat)
  | back
  | del
  | left
  | right
  | home
  | toEnd
  | delToStart
  | delToEnd
  | over (s : Bytes)
  | clr
  deriving Repr

/-- Apply one editor operation (boolean results of fallible operations
are discarded; the state transition is what the invariant is about). -/
def InputBuffer.stepOp (IML : Nat) (b : InputBuffer) : BufOp → InputBuffer
  | .ins c => (b.insert IML c).2
  | .back => b.backspace.2
  | .del => b.delete.2
  | .left => b.moveLeft
  | .right => b.moveRight
  | .home => b.moveHome
  | .toEnd => b.moveEnd
  | .delToStart => b.deleteToStart
  | .delToEnd => b.deleteToEnd
  | .over s => b.overwrite IML s
  | .clr => b.clear

/-- Run a sequence of editor operations from a given state. -/
def InputBuffer.runOps (IML : Nat) (b : InputBuffer) (ops : List BufOp) : InputBuffer :=
  ops.foldl (InputBuffer.stepOp IML) b

/-! ## ANSI key decoder (ushell2/src/input/key_reader.rs, `AnsiKeyParser`)

The `heapless::Vec<u8, 8>` escape buffer is a byte list whose `push`
silently fails at capacity 8, exactly as in `heapless`. -/

/-- Logical key events (`Key`). -/
inductive Key where
  | arrowUp
  | arrowDown
  | arrowLeft
  | arrowRight
  | home
  | keyEnd
  | insertKey
  | deleteKey
  | pageUp
  | pageDown
  | enter
  | backspace
  | tab
  | shiftTab
  | ctrlU
  | ctrlK
  | ctrlD
  | ctrlN
  | ctrlP
  | char (c : Nat)
  deriving Repr, DecidableEq

/-- State of `AnsiKeyParser`. -/
structure AnsiKeyParser where
  escapeBuffer : Bytes
  inEscape : Bool
  deriving Repr, DecidableEq

/-- `AnsiKeyParser::new()`. -/
def AnsiKeyParser.new : AnsiKeyParser := { escapeBuffer := [], inEscape := false }

/-- `heapless::Vec::<u8, 8>::push`: append, silently dropped at capacity. -/
def escPush (buf : Bytes) (b : Nat) : Bytes :=
  if buf.length < 8 then buf ++ [b] else buf

/-- `AnsiKeyParser::try_complete_escape`, returning the updated state and
the emitted key (if any). -/
def AnsiKeyParser.tryCompleteEscape (p : AnsiKeyParser) : AnsiKeyParser × Option Key :=
  let buf := p.escapeBuffer
  if buf.length ≥ 3 ∧ buf.getD 0 0 = 27 ∧ buf.getD 1 0 = 91 then
    let result : Option Key :=
      if buf.getD 2 0 = 65 then some .arrowUp
      else if buf.getD 2 0 = 66 then some .arrowDown
      else if buf.getD 2 0 = 67 then some .arrowRight
      else if buf.getD 2 0 = 68 then some .arrowLeft
      else if buf.getD 2 0 = 72 then some .home
      else if buf.getD 2 0 = 70 then some .keyEnd
      else if buf.getD 2 0 = 90 then some .shiftTab
      else if 49 ≤ buf.getD 2 0 ∧ buf.getD 2 0 ≤ 54 then
        -- extended sequences `ESC [ N ~`
        if buf.length ≥ 4 ∧ buf.getD 3 0 = 126 then
          if buf.getD 2 0 = 49 then some .home
          else if buf.getD 2 0 = 50 then some .insertKey
          else if buf.getD 2 0 = 51 then some .deleteKey
          else if buf.getD 2 0 = 52 then some .keyEnd
          else if buf.getD 2 0 = 53 then some .pageUp
          else if buf.getD 2 0 = 54 then some .pageDown
          else none
        else none -- wait for more bytes
      else some (.char (buf.getD 2 0))
    if result.isSome then ({ escapeBuffer := [], inEscape := false }, result)
    else (p, result)
  else if buf.length ≥ 4 then
    -- escape sequence too long, reset
    ({ escapeBuffer := [], inEscape := false }, none)
  else (p, none) -- wait for more bytes

/-- `AnsiKeyParser::parse_byte`. -/
def AnsiKeyParser.parseByte (p : AnsiKeyParser) (byte : Nat) : AnsiKeyParser × Option Key :=
  if byte = 27 then
    ({ escapeBuffer := escPush [] byte, inEscape := true }, none)
  else if p.inEscape then
    { p with escapeBuffer := escPush p.escapeBuffer byte }.tryCompleteEscape
  else if byte = 21 then (p, some .ctrlU)
  else if byte = 11 then (p, some .ctrlK)
  else if byte = 4 then (p, some .ctrlD)
  else if byte = 14 then (p, some .ctrlN)
  else if byte = 16 then (p, some .ctrlP)
  else if byte = 13 ∨ byte = 10 then (p, some .enter)
  else if byte = 9 then (p, some .tab)
  else if byte = 127 ∨ byte = 8 then (p, some .backspace)
  else if 32 ≤ byte ∧ byte < 127 then (p, some (.char byte))
  else (p, none)

/-- Feed a whole byte stream, collecting the per-byte emissions. -/
def AnsiKeyParser.parseBytes (p : AnsiKeyParser) : List Nat → AnsiKeyParser × List (Option Key)
  | [] => (p, [])
  | b :: rest =>
    let (p', k) := p.parseByte b
    let (p'', ks) := p'.parseBytes rest
    (p'', k :: ks)

/-! ## Tokenizer (ushell_dispatcher/src/commandsgen/mod.rs, `tokenize`)

The caller-supplied token buffer `out : &mut [&str]` becomes a capacity
`cap`; a token is stored only while fewer than `cap` tokens have been
stored, exactly like the source's `if n < out.len()` guard. -/

/-- `is_space`: ASCII space or tab. -/
def isSpaceTok (b : Nat) : Bool := b == 32 || b == 9

/-- Errors of the generated dispatcher (`DispatchError`). -/
inductive DispatchError where
  | empty
  | unknownFunction
  | wrongArity (expected : Nat)
  | badBool
  | badChar
  | badUnsigned
  | badSigned
  | badFloat
  | badHexStr
  deriving Repr, DecidableEq

/-- The scanning loop of `tokenize`: skip separators (one byte per
step), then read one (quoted or unquoted) token, store it while
capacity remains, repeat.  `n` is the number of tokens stored so far. -/
def tokenizeAux (cap : Nat) (n : Nat) : Bytes → List Bytes
  | [] => []
  | b :: bs =>
    if isSpaceTok b then tokenizeAux cap n bs
    else if b = 34 then
      -- quoted token: up to the closing quote; then the closing quote and
      -- any following non-space bytes are consumed and discarded
      let tok := bs.takeWhile (fun c => c ≠ 34)
      let rest4 := (bs.dropWhile (fun c => c ≠ 34)).tail.dropWhile (fun c => !isSpaceTok c)
      if n < cap then tok :: tokenizeAux cap (n + 1) rest4
      else tokenizeAux cap n rest4
    else
      -- unquoted token
      let tok := b :: bs.takeWhile (fun c => !isSpaceTok c)
      let rest' := bs.dropWhile (fun c => !isSpaceTok c)
      if n < cap then tok :: tokenizeAux cap (n + 1) rest'
      else tokenizeAux cap n rest'
termination_by bytes => bytes.length
decreasing_by
  · simp
  · have h3 : (bs.dropWhile (fun c => decide (c ≠ 34))).length ≤ bs.length :=
      (List.dropWhile_suffix _).sublist.length_le
    have h4 : ((bs.dropWhile (fun c => decide (c ≠ 34))).tail.dropWhile
        (fun c => !isSpaceTok c)).length ≤ (bs.dropWhile (fun c => decide (c ≠ 34))).tail.length :=
      (List.dropWhile_suffix _).sublist.length_le
    have h5 := List.length_tail (bs.dropWhile (fun c => decide (c ≠ 34)))
    simp only [List.length_cons]
    omega
  · have h3 : (bs.dropWhile (fun c => decide (c ≠ 34))).length ≤ bs.length :=
      (List.dropWhile_suffix _).sublist.length_le
    have h4 : ((bs.dropWhile (fun c => decide (c ≠ 34))).tail.dropWhile
        (fun c => !isSpaceTok c)).length ≤ (bs.dropWhile (fun c => decide (c ≠ 34))).tail.length :=
      (List.dropWhile_suffix _).sublist.length_le
    have h5 := List.length_tail (bs.dropWhile (fun c => decide (c ≠ 34)))
    simp only [List.length_cons]
    omega
  · have h4 : ((bs.dropWhile (fun c => !isSpaceTok c))).length ≤ bs.length :=
      (List.dropWhile_suffix _).sublist.length_le
    simp only [List.length_cons]
    omega
  · have h4 : ((bs.dropWhile (fun c => !isSpaceTok c))).length ≤ bs.length :=
      (List.dropWhile_suffix _).sublist.length_le
    simp only [List.length_cons]
    omega

/-- `tokenize(line, out)`: the produced tokens, or `Empty` when none
were stored. -/
def tokenize (cap : Nat) (line : Bytes) : Except DispatchError (List Bytes) :=
  let toks := tokenizeAux cap 0 line
  if toks.isEmpty then .error .empty else .ok toks

/-- Purely spec-side demonstration candidate table (`alpha`, `alpine`
for every first letter), used by concrete witnesses. -/
def demoCands : Nat → List Bytes
  | _ => [[97, 108, 112, 104, 97], [97, 108, 112, 105, 110, 101]]

/-- Purely spec-side: join a token list with single spaces. -/
def joinTokens : List Bytes → Bytes
  | [] => []
  | [t] => t
  | t :: rest => t ++ 32 :: joinTokens rest

/-! ## Typed argument parsers (ushell_dispatcher/src/commandsgen/mod.rs)

`<ty>::from_str_radix` is modelled semantically: an optional sign, at
least one digit valid for the radix, and the signed value must lie in
the type's range.  (The Rust implementation fails on intermediate
overflow; since partial accumulations never exceed the final magnitude,
this is equivalent to the final range check.) -/

/-- `char::to_digit(radix)` for a byte: `0-9`, `a-z`, `A-Z` below the radix. -/
def digitVal (radix : Nat) (c : Nat) : Option Nat :=
  let v : Option Nat :=
    if 48 ≤ c ∧ c ≤ 57 then some (c - 48)
    else if 97 ≤ c ∧ c ≤ 122 then some (c - 87)
    else if 65 ≤ c ∧ c ≤ 90 then some (c - 55)
    else none
  match v with
  | some d => if d < radix then some d else none
  | none => none

/-- Value of a digit string in the given radix; `none` when empty or any
byte is not a digit of the radix. -/
def digitsVal (radix : Nat) : Bytes → Option Nat
  | [] => none
  | [c] => digitVal radix c
  | c :: rest =>
    match digitVal radix c, digitsVal radix rest with
    | some d, some n => some (d * radix ^ rest.length + n)
    | _, _ => none

/-- Semantic model of `<ty>::from_str_radix(s, radix)` for an integer
type with range `[lo, hi]`: optional `+`/`-` sign, at least one valid
digit, result within range. -/
def fromStrRadix (radix : Nat) (lo hi : Int) (s : Bytes) : Option Int :=
  match s with
  | [] => none
  | c :: rest =>
    let neg : Bool := c = 45
    let ds : Bytes := if c = 43 ∨ c = 45 then rest else s
    match digitsVal radix ds with
    | none => none
    | some n =>
      let v : Int := if neg then -(n : Int) else (n : Int)
      if lo ≤ v ∧ v ≤ hi then some v else none

/-- The generated `parse_int!` functions: trim, detect a `0x`/`0o`/`0b`
radix prefix, else parse as decimal (`s.parse::<$ty>()`). -/
def parse_int (lo hi : Int) (s : Bytes) : Option Int :=
  let s := trimBytes s
  if s.take 2 = [48, 120] then fromStrRadix 16 lo hi (s.drop 2)
  else if s.take 2 = [48, 111] then fromStrRadix 8 lo hi (s.drop 2)
  else if s.take 2 = [48, 98] then fromStrRadix 2 lo hi (s.drop 2)
  else fromStrRadix 10 lo hi s

/-- `parse_i8`. -/
def parse_i8 (s : Bytes) : Option Int := parse_int (-128) 127 s

/-- `parse_u32` (value returned as the non-negative integer). -/
def parse_u32 (s : Bytes) : Option Nat :=
  (parse_int 0 4294967295 s).map Int.toNat

/-- `u8::from_str_radix(_, 16)` on a two-byte chunk, as used by
`parse_hexstr`. -/
def parseHexPair (s : Bytes) : Option Nat :=
  (fromStrRadix 16 0 255 s).map Int.toNat

/-- The chunk loop of `parse_hexstr`: decode consecutive two-byte
groups, failing if any group is not a base-16 `u8` literal. -/
def hexPairs : Bytes → Option (List Nat)
  | [] => some []
  | [_] => none
  | a :: b :: rest =>
    match parseHexPair [a, b], hexPairs rest with
    | some v, some l => some (v :: l)
    | _, _ => none

/-- `parse_hexstr` of the generated module: non-empty, even length,
decoded length at most `maxLen` (= `MAX_HEXSTR_LEN`), all chunks valid. -/
def parse_hexstr (maxLen : Nat) (s : Bytes) : Option (List Nat) :=
  if s.length % 2 ≠ 0 ∨ s.length = 0 ∨ s.length / 2 > maxLen then none
  else hexPairs s

/-- Purely spec-side: a byte is a hexadecimal digit (`0-9a-fA-F`). -/
def isHexDigit (c : Nat) : Bool :=
  (48 ≤ c && c ≤ 57) || (97 ≤ c && c ≤ 102) || (65 ≤ c && c ≤ 70)

/-! ## Dispatcher (ushell_dispatcher/src/commandsgen/mod.rs)

The generated `CallCtx` holds one fixed-size slot array per primitive
category (float slots are not modelled; no verified claim involves
them).  `Entry` carries the generated per-descriptor parser and the
per-function caller wrapper; the caller's result type is a parameter `α`
recording what the invoked handler received. -/

/-- Stack-only argument storage (`CallCtx`). -/
structure CallCtx where
  u8s : List Nat
  u16s : List Nat
  u32s : List Nat
  u64s : List Nat
  u128s : List Nat
  i8s : List Int
  i16s : List Int
  i32s : List Int
  i64s : List Int
  i128s : List Int
  usizes : List Nat
  isizes : List Int
  bools : List Bool
  chars : List Nat
  strs : List Bytes
  hexstrs : List (List Nat)
  deriving Repr, DecidableEq

/-- `CallCtx::new()` sized by per-type maxima. -/
def CallCtx.new (mU8 mU16 mU32 mU64 mU128 mI8 mI16 mI32 mI64 mI128 mUsize mIsize mBool mChar mStr mHex : Nat) : CallCtx :=
  { u8s := List.replicate mU8 0, u16s := List.replicate mU16 0,
    u32s := List.replicate mU32 0, u64s := List.replicate mU64 0,
    u128s := List.replicate mU128 0,
    i8s := List.replicate mI8 0, i16s := List.replicate mI16 0,
    i32s := List.replicate mI32 0, i64s := List.replicate mI64 0,
    i128s := List.replicate mI128 0,
    usizes := List.replicate mUsize 0, isizes := List.replicate mIsize 0,
    bools := List.replicate mBool false, chars := List.replicate mChar 0,
    strs := List.replicate mStr [], hexstrs := List.replicate mHex [] }

/-- One generated dispatcher table entry (`Entry`). -/
structure Entry (α : Type) where
  name : Bytes
  arity : Nat
  parser : CallCtx → List Bytes → Except DispatchError CallCtx
  caller : CallCtx → Except DispatchError α

/-- `find_entry`: first table entry with the given name (the generated
match on string literals). -/
def findEntry {α : Type} (entries : List (Entry α)) (name : Bytes) : Option (Entry α) :=
  entries.find? (fun e => e.name == name)

/-- `dispatch_with_buf`: tokenize, look up the command, check arity,
parse the arguments into a fresh `CallCtx`, invoke the caller wrapper. -/
def dispatchWithBuf {α : Type} (entries : List (Entry α)) (ctx0 : CallCtx)
    (cap : Nat) (line : Bytes) : Except DispatchError α :=
  match tokenize cap line with
  | .error e => .error e
  | .ok toks =>
    let name := toks.headD []
    let gotArity := toks.length - 1
    match findEntry entries name with
    | none => .error .unknownFunction
    | some ent =>
      if gotArity ≠ ent.arity then .error (.wrongArity ent.arity)
      else
        match ent.parser ctx0 (toks.drop 1) with
        | .error e => .error e
        | .ok ctx =>
          match ent.caller ctx with
          | .ok a => .ok a
          | .error e => .error e

/-! ### The dispatcher generated for `"bD: cmds::read"` (claim C1)

Expansion of `generate_commands_dispatcher!` for the single declaration
`bD: cmds::read` with `hexstr_size = 8`: unique descriptor `"bD"`,
`MAX_I8 = MAX_U32 = 1`, all other maxima `0`, `MAX_ARITY = 2`.  The
caller wrapper records the typed argument pair the handler receives. -/

/-- `CallCtx::new()` for the `read` dispatcher (`MAX_I8 = MAX_U32 = 1`). -/
def readCtx0 : CallCtx := CallCtx.new 0 0 1 0 0 1 0 0 0 0 0 0 0 0 0 0

/-- `__parse_spec_0` for descriptor `"bD"`: an `i8` then a `u32`. -/
def parseSpecBD (ctx : CallCtx) (args : List Bytes) : Except DispatchError CallCtx :=
  match parse_i8 (args.getD 0 []) with
  | none => .error .badSigned
  | some v =>
    let ctx := { ctx with i8s := ctx.i8s.set 0 v }
    match parse_u32 (args.getD 1 []) with
    | none => .error .badUnsigned
    | some w => .ok { ctx with u32s := ctx.u32s.set 0 w }

/-- `__call_read`: extract `(i8s[0], u32s[0])` in descriptor order and
invoke the bound handler; the model returns the argument pair. -/
def callerRead (ctx : CallCtx) : Except DispatchError (Int × Nat) :=
  .ok (ctx.i8s.getD 0 0, ctx.u32s.getD 0 0)

/-- The generated `ENTRIES` table for `"bD: cmds::read"`. -/
def readEntries : List (Entry (Int × Nat)) :=
  [{ name := str2bytes "read", arity := 2, parser := parseSpecBD, caller := callerRead }]

/-- `dispatch(line)` of the `read` dispatcher, with the generated token
buffer size `2 + MAX_ARITY = 4`. -/
def readDispatch (line : Bytes) : Except DispatchError (Int × Nat) :=
  dispatchWithBuf readEntries readCtx0 4 line

/-- The generated parser statement for a descriptor character `h`
(`parse_hexstr(args[k]).ok_or(BadHexStr)`), acting on the first
argument token of a single-argument descriptor `"h"`. -/
def parseSpecH (maxLen : Nat) (ctx : CallCtx) (args : List Bytes) : Except DispatchError CallCtx :=
  match parse_hexstr maxLen (args.getD 0 []) with
  | none => .error .badHexStr
  | some v => .ok { ctx with hexstrs := ctx.hexstrs.set 0 v }

/-! ## Autocomplete (ushell2/src/autocomplete/mod.rs, `Autocomplete<NAC, FNL>`)

`heapless::String<FNL>` operations keep the capacity check of the
source: `push_str` appends only when the whole suffix fits, `push` only
when one more byte fits.  `heapless::Vec<_, NAC>::push` fails at
capacity; the candidate-loading loop breaks on the first failure while
the filter loop ignores failures. -/

/-- `heapless::String::<cap>::push_str`: all-or-nothing append. -/
def hlPushStr (cap : Nat) (s t : Bytes) : Bytes :=
  if s.length + t.length ≤ cap then s ++ t else s

/-- `heapless::String::<cap>::push`: append one byte if it fits. -/
def hlPush (cap : Nat) (s : Bytes) (c : Nat) : Bytes :=
  if s.length + 1 ≤ cap then s ++ [c] else s

/-- The candidate-loading loop: `push` each element, `break` on the
first capacity failure. -/
def hlPushAllBreak (cap : Nat) (v : List Bytes) : List Bytes → List Bytes
  | [] => v
  | x :: xs => if v.length + 1 ≤ cap then hlPushAllBreak cap (v ++ [x]) xs else v

/-- State of `Autocomplete<NAC, FNL>`. -/
structure Autocomplete where
  candidates : List Bytes
  filtered : List Bytes
  input : Bytes
  tabIndex : Nat
  firstCharLoaded : Option Nat
  deriving Repr, DecidableEq

/-- `Autocomplete::new()`. -/
def Autocomplete.new : Autocomplete :=
  { candidates := [], filtered := [], input := [], tabIndex := 0, firstCharLoaded := none }

/-- The `while` loop of `longest_common_prefix`: truncate `p` from the
end until it is a prefix of `s` (or empty). -/
def shrinkToCommon (p s : Bytes) : Bytes :=
  if p.isPrefixOf s then p
  else if p = [] then p
  else shrinkToCommon p.dropLast s
termination_by p.length
decreasing_by
  have := List.length_dropLast p
  have : p ≠ [] := by assumption
  have hp : 0 < p.length := List.length_pos.mpr (by assumption)
  simp [List.length_dropLast]
  omega

/-- `Autocomplete::longest_common_prefix` (byte-wise LCP of a candidate
list, copied into a fresh capacity-`FNL` string). -/
def lcpOfList (FNL : Nat) (strings : List Bytes) : Bytes :=
  match strings with
  | [] => []
  | p0 :: rest => hlPushStr FNL [] (rest.foldl shrinkToCommon p0)

/-- `Autocomplete::update_input(new_input, get_candidates)`. -/
def Autocomplete.updateInput (NAC FNL : Nat) (getCandidates : Nat → List Bytes)
    (st : Autocomplete) (newInput : Bytes) : Autocomplete :=
  let input := hlPushStr FNL [] newInput
  let st := { st with input := input, filtered := [] }
  match input.head? with
  | none =>
    -- empty input: clear everything and return
    { st with candidates := [], firstCharLoaded := none, tabIndex := 0 }
  | some firstChar =>
    let st :=
      if st.firstCharLoaded ≠ some firstChar then
        { st with candidates := hlPushAllBreak NAC [] (getCandidates firstChar),
                  firstCharLoaded := some firstChar }
      else st
    let filtered := st.candidates.foldl
      (fun acc c => if input.isPrefixOf c then
          (if acc.length + 1 ≤ NAC then acc ++ [c] else acc)
        else acc) []
    let st := { st with filtered := filtered, tabIndex := 0 }
    if filtered.length = 1 then
      { st with input := hlPush FNL (hlPushStr FNL [] (filtered.getD 0 [])) 32 }
    else if filtered.length > 1 then
      { st with input := lcpOfList FNL filtered }
    else st

/-- `Autocomplete::cycle_forward()`. -/
def Autocomplete.cycleForward (FNL : Nat) (st : Autocomplete) : Autocomplete :=
  if st.filtered.isEmpty then st
  else
    let idx := (st.tabIndex + 1) % st.filtered.length
    { st with tabIndex := idx,
              input := hlPush FNL (hlPushStr FNL [] (st.filtered.getD idx [])) 32 }

/-- Iterated `cycle_forward`. -/
def Autocomplete.cycles (FNL : Nat) (st : Autocomplete) : Nat → Autocomplete
  | 0 => st
  | k + 1 => (st.cycles FNL k).cycleForward FNL

/-! ## History (ushell2/src/history/mod.rs, `History<HTC>`)

The `[u8; HTC]` circular buffer is a `List Nat` of length `HTC`; all
positions are taken `% HTC` exactly where the source does.  The byte
callbacks of `for_each_byte` / `get_prev_entry` are modelled as
returning the visited bytes (consumers that stop early, such as a full
input buffer, truncate on their side — see `insertAll`). -/

/-- State of `History<HTC>`: buffer, `data_head`, `entry_oldest`,
`entry_size`, `current_index`. -/
structure History where
  data : List Nat
  dataHead : Nat
  entryOldest : Nat
  entrySize : Nat
  currentIndex : Nat
  deriving Repr, DecidableEq

/-- `History::new()`. -/
def History.new (HTC : Nat) : History :=
  { data := List.replicate HTC 0, dataHead := 0, entryOldest := 0,
    entrySize := 0, currentIndex := 0 }

/-- `read_length_at`: big-endian `u16` at `pos` (`(hi << 8) | lo`). -/
def readLengthAt (HTC : Nat) (d : List Nat) (pos : Nat) : Nat :=
  (d.getD pos 0) <<< 8 ||| d.getD ((pos + 1) % HTC) 0

/-- `write_length_at`: store `(len >> 8) as u8` and `(len & 0xFF) as u8`. -/
def writeLengthAt (HTC : Nat) (d : List Nat) (pos len : Nat) : List Nat :=
  (d.set pos ((len >>> 8) % 256)).set ((pos + 1) % HTC) (len % 256)

/-- `entry_total_size`: data plus 4 metadata bytes. -/
def entryTotalSize (len : Nat) : Nat := len + 4

/-- `find_next_entry_pos`. -/
def findNextEntryPos (HTC : Nat) (d : List Nat) (pos : Nat) : Nat :=
  (pos + entryTotalSize (readLengthAt HTC d pos)) % HTC

/-- Walk `k` entries forward from `pos` using the leading lengths. -/
def hopPos (HTC : Nat) (d : List Nat) (pos : Nat) : Nat → Nat
  | 0 => pos
  | k + 1 => hopPos HTC d (findNextEntryPos HTC d pos) k

/-- The byte comparison inside `is_duplicate`:
`bytes.iter().enumerate().all(|(j, &ch)| data[(data_pos + j) % HTC] == ch)`. -/
def matchesAt (HTC : Nat) (d : List Nat) (dataPos : Nat) : Bytes → Nat → Bool
  | [], _ => true
  | ch :: rest, j => d.getD ((dataPos + j) % HTC) 0 == ch && matchesAt HTC d dataPos rest (j + 1)

/-- The entry loop of `is_duplicate`, iterating `k` entries from `pos`. -/
def dupLoop (HTC : Nat) (d : List Nat) (bytes : Bytes) : Nat → Nat → Bool
  | 0, _ => false
  | k + 1, pos =>
    let entryLen := readLengthAt HTC d pos
    if entryLen = bytes.length ∧ matchesAt HTC d ((pos + 2) % HTC) bytes 0 then true
    else dupLoop HTC d bytes k (findNextEntryPos HTC d pos)

/-- `is_duplicate`. -/
def History.isDuplicate (HTC : Nat) (h : History) (bytes : Bytes) : Bool :=
  dupLoop HTC h.data bytes h.entrySize h.entryOldest

/-- The entry loop of `calculate_used_space`. -/
def usedLoop (HTC : Nat) (d : List Nat) : Nat → Nat → Nat
  | 0, _ => 0
  | k + 1, pos => entryTotalSize (readLengthAt HTC d pos) + usedLoop HTC d k (findNextEntryPos HTC d pos)

/-- `calculate_used_space`. -/
def History.calculateUsedSpace (HTC : Nat) (h : History) : Nat :=
  if h.entrySize = 0 then 0 else usedLoop HTC h.data h.entrySize h.entryOldest

/-- `remove_oldest_entry`. -/
def History.removeOldestEntry (HTC : Nat) (h : History) : History :=
  if h.entrySize = 0 then h
  else
    let len := readLengthAt HTC h.data h.entryOldest
    let size := entryTotalSize len
    let h := { h with entryOldest := (h.entryOldest + size) % HTC,
                      entrySize := h.entrySize - 1 }
    if h.entrySize = 0 then
      { h with dataHead := 0, entryOldest := 0, currentIndex := 0 }
    else if h.currentIndex ≥ h.entrySize then
      { h with currentIndex := h.entrySize - 1 }
    else h

/-- The eviction loop of `push`
(`while entry_size > 0 && (HTC - used) < needed`), driven by the fuel
`k` which always equals `h.entrySize` at the call sites. -/
def evictLoopF (HTC : Nat) : Nat → History → Nat → Nat → History × Nat
  | 0, h, used, _ => (h, used)
  | k + 1, h, used, needed =>
    if HTC - used < needed then
      let oldestLen := readLengthAt HTC h.data h.entryOldest
      let oldestSize := entryTotalSize oldestLen
      evictLoopF HTC k (h.removeOldestEntry HTC) (used - oldestSize) needed
    else (h, used)

/-- The data-write loop of `push`. -/
def writeBytesLoop (HTC : Nat) : List Nat → Nat → Bytes → List Nat × Nat
  | d, pos, [] => (d, pos)
  | d, pos, b :: rest => writeBytesLoop HTC (d.set pos b) ((pos + 1) % HTC) rest

/-- `History::push`. -/
def History.push (HTC : Nat) (h : History) (s : Bytes) : Bool × History :=
  let bytes := trimBytes s
  let len := bytes.length
  if len = 0 ∨ len > 65535 then (false, h)
  else
    let needed := entryTotalSize len
    if needed > HTC then (false, h)
    else if h.entrySize > 0 ∧ h.isDuplicate HTC bytes then (false, h)
    else
      let used := h.calculateUsedSpace HTC
      let (h, used) := evictLoopF HTC h.entrySize h used needed
      if HTC - used < needed then (false, h)
      else
        let writePos := h.dataHead
        let d := writeLengthAt HTC h.data writePos len
        let (d, writePos) := writeBytesLoop HTC d ((writePos + 2) % HTC) bytes
        let d := writeLengthAt HTC d writePos len
        let writePos := (writePos + 2) % HTC
        (true, { data := d, dataHead := writePos, entryOldest := h.entryOldest,
                 entrySize := h.entrySize + 1, currentIndex := h.entrySize })

/-- `for_each_byte(index, f)`: the bytes the callback receives (all of
the entry, in order), or `none` when the index is out of bounds. -/
def History.forEachByte (HTC : Nat) (h : History) (index : Nat) : Option Bytes :=
  if index ≥ h.entrySize then none
  else
    let pos := hopPos HTC h.data h.entryOldest index
    let len := readLengthAt HTC h.data pos
    let dataPos := (pos + 2) % HTC
    some ((List.range len).map (fun i => h.data.getD ((dataPos + i) % HTC) 0))

/-- `get_prev_entry(f)`: move the navigation index backwards (wrapping
to the newest entry) and yield that entry's bytes. -/
def History.getPrevEntry (HTC : Nat) (h : History) : History × Option Bytes :=
  if h.entrySize = 0 then (h, none)
  else
    let idx := if h.currentIndex = 0 then h.entrySize - 1 else h.currentIndex - 1
    let h := { h with currentIndex := idx }
    (h, h.forEachByte HTC idx)

/-- Feeding bytes to `InputBuffer::insert` until one insertion fails
(the `get_prev_entry` callback of `InputParser::handle_up`). -/
def insertAll (IML : Nat) (buf : InputBuffer) : Bytes → InputBuffer
  | [] => buf
  | c :: rest =>
    match buf.insert IML c with
    | (true, b') => insertAll IML b' rest
    | (false, b') => b'

/-- `InputParser::handle_up`: clear the line buffer and load the
previous history entry into it. -/
def handleUp (HTC IML : Nat) (hist : History) (buf : InputBuffer) : History × InputBuffer :=
  let buf := buf.clear
  match hist.getPrevEntry HTC with
  | (h, none) => (h, buf) -- bell
  | (h, some bytes) => (h, insertAll IML buf bytes)

/-! ## Specification-side views used in the theorem statements -/

/-- Total bytes occupied by a list of entries: `Σ (4 + len_i)`. -/
def usedSize (es : List Bytes) : Nat :=
  (es.map (fun e => entryTotalSize e.length)).sum

/-- Abstract mirror of the eviction loop: drop oldest entries while the
free space is below `needed`. -/
def evictWhile (HTC needed : Nat) : List Bytes → List Bytes
  | [] => []
  | e :: rest =>
    if HTC - usedSize (e :: rest) < needed then evictWhile HTC needed rest
    else e :: rest

/-- The circular buffer `d` holds the entries `es` consecutively from
position `pos`: each entry is stored as a leading big-endian length
followed by its data bytes (the trailing length is never read by the
modelled operations and is not constrained). -/
def layout (HTC : Nat) (d : List Nat) : Nat → List Bytes → Prop
  | _, [] => True
  | pos, e :: rest =>
    readLengthAt HTC d pos = e.length ∧
    (∀ j < e.length, d.getD ((pos + 2 + j) % HTC) 0 = e.getD j 0) ∧
    layout HTC d ((pos + entryTotalSize e.length) % HTC) rest

/-- Representation invariant of `History<HTC>`: the state `h` stores
exactly the entry list `es` (oldest first). -/
structure Rep (HTC : Nat) (h : History) (es : List Bytes) : Prop where
  dataLen : h.data.length = HTC
  size : h.entrySize = es.length
  lay : layout HTC h.data h.entryOldest es
  headPos : h.dataHead = (h.entryOldest + usedSize es) % HTC
  oldestLt : h.entryOldest < HTC ∨ (h.entryOldest = 0 ∧ HTC = 0)
  usedLe : usedSize es ≤ HTC
  lens : ∀ e ∈ es, 0 < e.length ∧ e.length ≤ 65535 ∧ entryTotalSize e.length ≤ HTC
  bytesLt : ∀ e ∈ es, ∀ b ∈ e, b < 256

/-! # Theorems -/

/-! ## C6 — input-buffer invariant `0 ≤ cursor ≤ len ≤ IML` -/

/-- Every single editor operation preserves `cursor ≤ len ∧ len ≤ IML`. -/
theorem stepOp_inv (IML : Nat) (b : InputBuffer) (op : BufOp)
    (h1 : b.cursorPos ≤ b.length) (h2 : b.length ≤ IML) :
    (b.stepOp IML op).cursorPos ≤ (b.stepOp IML op).length ∧
      (b.stepOp IML op).length ≤ IML := by
  cases op <;>
    simp only [InputBuffer.stepOp, InputBuffer.insert, InputBuffer.backspace,
      InputBuffer.delete, InputBuffer.deleteAtCursor, InputBuffer.moveLeft,
      InputBuffer.moveRight, InputBuffer.moveHome, InputBuffer.moveEnd,
      InputBuffer.deleteToStart, InputBuffer.deleteToEnd, InputBuffer.overwrite,
      InputBuffer.clear] <;>
    (try split_ifs) <;> simp_all <;> omega

/-- Claim C6: for every sequence of `InputBuffer` operations (insert,
backspace, delete, cursor moves, delete-to-start, delete-to-end,
overwrite, clear) starting from a new buffer, the state satisfies
`0 ≤ cursor ≤ len ≤ IML` after every step.  (The statement quantifies
over all operation sequences, so it covers the state after every prefix
of a longer sequence; `0 ≤ cursor` is automatic for `Nat`.) -/
theorem C6_input_buffer_invariant (IML : Nat) (ops : List BufOp) :
    (InputBuffer.runOps IML (InputBuffer.new IML) ops).cursorPos ≤
        (InputBuffer.runOps IML (InputBuffer.new IML) ops).length ∧
      (InputBuffer.runOps IML (InputBuffer.new IML) ops).length ≤ IML := by
  have main : ∀ (ops : List BufOp) (b : InputBuffer),
      b.cursorPos ≤ b.length → b.length ≤ IML →
      (InputBuffer.runOps IML b ops).cursorPos ≤ (InputBuffer.runOps IML b ops).length ∧
        (InputBuffer.runOps IML b ops).length ≤ IML := by
    intro ops
    induction ops with
    | nil => intro b h1 h2; exact ⟨h1, h2⟩
    | cons op rest ih =>
      intro b h1 h2
      have h := stepOp_inv IML b op h1 h2
      simpa [InputBuffer.runOps] using ih (b.stepOp IML op) h.1 h.2
  exact main ops (InputBuffer.new IML) (by simp [InputBuffer.new]) (by simp [InputBuffer.new])

/-! ## C3 — key-decoder escape-buffer overflow behaviour -/

/-- Claim C3 counterexample: feeding `ESC [ 1 A` makes the escape buffer
reach length 4 with no known pattern matched and no key emitted, yet the
decoder stays in the escape state, and a subsequent printable byte `x`
is *not* decoded as `Char` (it is swallowed with no emission). -/
theorem C3_counterexample :
    (AnsiKeyParser.new.parseBytes [27, 91, 49, 65]).2 = [none, none, none, none] ∧
    (AnsiKeyParser.new.parseBytes [27, 91, 49, 65]).1.escapeBuffer = [27, 91, 49, 65] ∧
    (AnsiKeyParser.new.parseBytes [27, 91, 49, 65]).1.inEscape = true ∧
    ((AnsiKeyParser.new.parseBytes [27, 91, 49, 65]).1.parseByte 120).2 = none := by
  decide

/-- Claim C3 (amended): when the escape buffer reaches length 4 without
matching any known escape pattern *and the byte following ESC is not
`[`*, the decoder discards the buffer and returns to the `Normal` state
with no key emitted, and a subsequent printable byte is again decoded as
`Char`.  When the byte following ESC is `[` (which at buffer length 4
means the third byte was a digit `1`–`6` and the fourth was not `~`),
the decoder instead stays in the escape state and emits no key, also for
every further non-ESC byte. -/
theorem C3_escape_overflow (p : AnsiKeyParser) (b2 b3 b4 c d x y : Nat)
    (hb2a : b2 ≠ 27) (hb2b : b2 ≠ 91) (hb3 : b3 ≠ 27) (hb4 : b4 ≠ 27)
    (hc1 : 32 ≤ c) (hc2 : c < 127)
    (hd1 : 49 ≤ d) (hd2 : d ≤ 54) (hx1 : x ≠ 126) (hx2 : x ≠ 27) (hy : y ≠ 27) :
    ((p.parseBytes [27, b2, b3, b4]).2 = [none, none, none, none] ∧
      (p.parseBytes [27, b2, b3, b4]).1 = AnsiKeyParser.new ∧
      ((p.parseBytes [27, b2, b3, b4]).1.parseByte c).2 = some (.char c)) ∧
    ((p.parseBytes [27, 91, d, x]).2 = [none, none, none, none] ∧
      (p.parseBytes [27, 91, d, x]).1.inEscape = true ∧
      ((p.parseBytes [27, 91, d, x]).1.parseByte y).2 = none) := by
  have hd3 : d ≠ 65 ∧ d ≠ 66 ∧ d ≠ 67 ∧ d ≠ 68 ∧ d ≠ 72 ∧ d ≠ 70 ∧ d ≠ 90 := by omega
  have hc3 : c ≠ 27 ∧ c ≠ 21 ∧ c ≠ 11 ∧ c ≠ 4 ∧ c ≠ 14 ∧ c ≠ 16 ∧ c ≠ 13 ∧ c ≠ 10 ∧
      c ≠ 9 ∧ c ≠ 127 ∧ c ≠ 8 := by omega
  obtain ⟨hc3a, hc3b, hc3c, hc3d, hc3e, hc3f, hc3g, hc3h, hc3i, hc3j, hc3k⟩ := hc3
  constructor
  · simp only [AnsiKeyParser.parseBytes, AnsiKeyParser.parseByte,
      AnsiKeyParser.tryCompleteEscape, AnsiKeyParser.new, escPush]
    simp [hb2a, hb2b, hb3, hb4, hc1, hc2, hc3a, hc3b, hc3c, hc3d, hc3e, hc3f, hc3g,
      hc3h, hc3i, hc3j, hc3k]
  · simp only [AnsiKeyParser.parseBytes, AnsiKeyParser.parseByte,
      AnsiKeyParser.tryCompleteEscape, AnsiKeyParser.new, escPush]
    have hd27 : d ≠ 27 := by omega
    simp [hd1, hd2, hd27, hd3.1, hd3.2.1, hd3.2.2.1, hd3.2.2.2.1, hd3.2.2.2.2.1,
      hd3.2.2.2.2.2.1, hd3.2.2.2.2.2.2, hx1, hx2, hy]

/-- Witness for `C3_escape_overflow` at concrete bytes
(`ESC O 0 A`, printable `x`; stuck branch `ESC [ 1 A` then `x`). -/
theorem C3_escape_overflow_witness :
    ((AnsiKeyParser.new.parseBytes [27, 79, 48, 65]).2 = [none, none, none, none] ∧
      (AnsiKeyParser.new.parseBytes [27, 79, 48, 65]).1 = AnsiKeyParser.new ∧
      ((AnsiKeyParser.new.parseBytes [27, 79, 48, 65]).1.parseByte 120).2 =
        some (.char 120)) ∧
    ((AnsiKeyParser.new.parseBytes [27, 91, 49, 65]).2 = [none, none, none, none] ∧
      (AnsiKeyParser.new.parseBytes [27, 91, 49, 65]).1.inEscape = true ∧
      ((AnsiKeyParser.new.parseBytes [27, 91, 49, 65]).1.parseByte 120).2 = none) :=
  C3_escape_overflow AnsiKeyParser.new 79 48 65 120 49 65 120
    (by decide) (by decide) (by decide) (by decide) (by decide) (by decide)
    (by decide) (by decide) (by decide) (by decide) (by decide)

/-! ## C2 — history navigation after pushing `a`, `b`, `c` -/

/-- Claim C2 counterexample: after pushing `a`, `b`, `c` into an empty
`History<32>`, the *first* previous-entry navigation (`ArrowUp` via
`handle_up`) loads `b` into the line buffer, not `c` (`push` leaves
`current_index` pointing at the newest entry and `get_prev_entry`
decrements before reading). -/
theorem C2_counterexample :
    (handleUp 32 16
        (((((History.new 32).push 32 [97]).2.push 32 [98]).2.push 32 [99]).2)
        (InputBuffer.new 16)).2.contents = [98] ∧ [98] ≠ [99] := by
  decide

/-- Claim C2 (amended): after pushing `a`, `b`, `c` into an empty
history, three successive previous-entry navigations (ArrowUp) load
`b`, then `a`, then wrap around to `c`; a fourth previous-entry
navigation loads `b` again. -/
theorem C2_history_navigation :
    (handleUp 32 16
        (((((History.new 32).push 32 [97]).2.push 32 [98]).2.push 32 [99]).2)
        (InputBuffer.new 16)).2.contents = [98] ∧
    ((handleUp 32 16
        (handleUp 32 16
          (((((History.new 32).push 32 [97]).2.push 32 [98]).2.push 32 [99]).2)
          (InputBuffer.new 16)).1
        (InputBuffer.new 16)).2.contents = [97] ∧
    ((handleUp 32 16
        (handleUp 32 16
          (handleUp 32 16
            (((((History.new 32).push 32 [97]).2.push 32 [98]).2.push 32 [99]).2)
            (InputBuffer.new 16)).1
          (InputBuffer.new 16)).1
        (InputBuffer.new 16)).2.contents = [99] ∧
    (handleUp 32 16
        (handleUp 32 16
          (handleUp 32 16
            (handleUp 32 16
              (((((History.new 32).push 32 [97]).2.push 32 [98]).2.push 32 [99]).2)
              (InputBuffer.new 16)).1
            (InputBuffer.new 16)).1
          (InputBuffer.new 16)).1
        (InputBuffer.new 16)).2.contents = [98])) := by
  decide

/-! ## C1 — dispatching `read 0xFF 1024` against descriptor `bD` -/

/-- Claim C1 counterexample: for the dispatcher generated from
`bD: cmds::read`, dispatching `read 0xFF 1024` does *not* invoke the
handler with `(-1, 1024)`: `i8::from_str_radix("FF", 16)` overflows
(255 > 127), so dispatch reports `BadSigned`. -/
theorem C1_counterexample :
    readDispatch (str2bytes "read 0xFF 1024") = .error .badSigned ∧
    readDispatch (str2bytes "read 0xFF 1024") ≠ .ok (-1, 1024) := by
  have h : readDispatch (str2bytes "read 0xFF 1024") = .error .badSigned := by
    simp [readDispatch, dispatchWithBuf, tokenize, tokenizeAux, findEntry, readEntries,
      parseSpecBD, parse_i8, parse_int, trimBytes, str2bytes, fromStrRadix, digitsVal,
      digitVal, isSpaceTok, isWsB]
  exact ⟨h, by simp [h]⟩

/-- Claim C1 (amended): for the dispatcher generated from
`bD: cmds::read`, dispatching `read 0xFF 1024` fails with `BadSigned`
(no handler is invoked), because `0xFF` = 255 exceeds the `i8` range;
dispatching `read -1 1024` succeeds and invokes the bound handler with
`(-1, 1024)`. -/
theorem C1_read_dispatch :
    readDispatch (str2bytes "read 0xFF 1024") = .error .badSigned ∧
    readDispatch (str2bytes "read -1 1024") = .ok (-1, 1024) := by
  constructor
  · simp [readDispatch, dispatchWithBuf, tokenize, tokenizeAux, findEntry, readEntries,
      parseSpecBD, parse_i8, parse_int, trimBytes, str2bytes, fromStrRadix, digitsVal,
      digitVal, isSpaceTok, isWsB]
  · simp [readDispatch, dispatchWithBuf, tokenize, tokenizeAux, findEntry, readEntries,
      parseSpecBD, parse_i8, parse_u32, parse_int, trimBytes, str2bytes, fromStrRadix,
      digitsVal, digitVal, isSpaceTok, isWsB, callerRead, readCtx0, CallCtx.new]

/-! ## C10 — `parse_hexstr` acceptance conditions -/

/-- Unfolding lemma for the chunk loop: a successful `hexPairs` decodes
`|s| / 2` bytes and every two-byte chunk is a valid base-16 `u8`
literal in the `from_str_radix` sense. -/
theorem hexPairs_spec : ∀ (s : Bytes) (l : List Nat), hexPairs s = some l →
    l.length = s.length / 2 ∧
      ∀ i < s.length / 2, (parseHexPair [s.getD (2 * i) 0, s.getD (2 * i + 1) 0]).isSome := by
  intro s
  induction s using hexPairs.induct with
  | case1 =>
    intro l h
    simp only [hexPairs, Option.some.injEq] at h
    subst h
    exact ⟨rfl, by intro i hi; simp at hi⟩
  | case2 a =>
    intro l h
    simp [hexPairs] at h
  | case3 a b rest v l' hr hp ih =>
    intro l h
    simp only [hexPairs, hp, hr, Option.some.injEq] at h
    subst h
    obtain ⟨ihl, ihb⟩ := ih l' hr
    refine ⟨by simp [ihl]; omega, ?_⟩
    intro i hi
    cases i with
    | zero => simp [hp]
    | succ j =>
      have hj : j < rest.length / 2 := by
        simp only [List.length_cons] at hi
        omega
      have := ihb j hj
      simpa [show 2 * (j + 1) = 2 * j + 1 + 1 by omega, Nat.mul_succ] using this
  | case4 a b rest hfail ih =>
    intro l h
    simp only [hexPairs] at h
    exact absurd h (by simp)

/-- Claim C10 counterexample: `parse_hexstr` accepts the token `"+A"`
(bytes `[43, 65]`), decoding it to `[10]`, although `+` is not a
hexadecimal digit — so an accepted token need not be valid hex. -/
theorem C10_counterexample :
    parse_hexstr 8 [43, 65] = some [10] ∧ isHexDigit 43 = false := by
  decide

/-- Claim C10 (amended): `parse_hexstr` returns `None` for the empty
string (even though 0 is an even length), so an `h` argument given an
empty token is rejected with `BadHexStr`; every accepted hexstring token
is non-empty, of even length, and decodes to at most `MAX_HEXSTR_LEN`
bytes, with every two-character group a valid base-16 `u8` literal in
the sense of `u8::from_str_radix` (which also permits a leading sign,
so an accepted token need not consist of hex digits only). -/
theorem C10_parse_hexstr (M : Nat) (ctx : CallCtx) (s : Bytes) (l : List Nat)
    (h : parse_hexstr M s = some l) :
    parse_hexstr M [] = none ∧
    parseSpecH M ctx [[]] = .error .badHexStr ∧
    (s ≠ [] ∧ s.length % 2 = 0 ∧ l.length = s.length / 2 ∧ l.length ≤ M ∧
      ∀ i < s.length / 2, (parseHexPair [s.getD (2 * i) 0, s.getD (2 * i + 1) 0]).isSome) := by
  refine ⟨by simp [parse_hexstr], by simp [parseSpecH, parse_hexstr], ?_⟩
  rw [parse_hexstr] at h
  by_cases hg : (s.length % 2 ≠ 0 ∨ s.length = 0 ∨ s.length / 2 > M)
  · rw [if_pos hg] at h
    cases h
  · rw [if_neg hg] at h
    push_neg at hg
    obtain ⟨hmod, hlen, hmax⟩ := hg
    obtain ⟨hl, hb⟩ := hexPairs_spec s l h
    exact ⟨by intro hs; exact hlen (by simp [hs]), hmod, hl, by omega, hb⟩

/-- Witness for `C10_parse_hexstr` at `M = 8`, `s = "AB"`, `l = [171]`. -/
theorem C10_parse_hexstr_witness :
    parse_hexstr 8 [] = none ∧
    parseSpecH 8 readCtx0 [[]] = .error .badHexStr ∧
    (([65, 66] : Bytes) ≠ [] ∧ ([65, 66] : Bytes).length % 2 = 0 ∧
      ([171] : List Nat).length = ([65, 66] : Bytes).length / 2 ∧
      ([171] : List Nat).length ≤ 8 ∧
      ∀ i < ([65, 66] : Bytes).length / 2,
        (parseHexPair [([65, 66] : Bytes).getD (2 * i) 0,
          ([65, 66] : Bytes).getD (2 * i + 1) 0]).isSome) :=
  C10_parse_hexstr 8 readCtx0 [65, 66] [171] (by decide)

/-! ## C8 — `WrongArity` classification of `dispatch` -/

/-- The only tokenizer error is `Empty`. -/
theorem tokenize_error_empty (cap : Nat) (line : Bytes) (e : DispatchError)
    (h : tokenize cap line = .error e) : e = .empty := by
  rw [tokenize] at h
  split_ifs at h with hh
  · cases h
    rfl

/-- Claim C8: `dispatch(line)` reports `WrongArity(expected = N)` if and
only if the line tokenizes to at least one token, the first token names
a registered command whose declared arity is `N`, and the number of
argument tokens differs from `N`.  The table's parsers and caller
wrappers are arbitrary functions (restricted only to never themselves
produce a `WrongArity` value, which holds for all generated parsers and
wrappers), so the classification is independent of them: no argument
parsing occurs and no handler is invoked. -/
theorem C8_wrong_arity {α : Type} (entries : List (Entry α)) (ctx0 : CallCtx)
    (cap : Nat) (line : Bytes) (N : Nat)
    (hp : ∀ e ∈ entries, ∀ ctx args m, e.parser ctx args ≠ .error (.wrongArity m))
    (hc : ∀ e ∈ entries, ∀ ctx m, e.caller ctx ≠ .error (.wrongArity m)) :
    dispatchWithBuf entries ctx0 cap line = .error (.wrongArity N) ↔
      ∃ toks ent, tokenize cap line = .ok toks ∧
        findEntry entries (toks.headD []) = some ent ∧
        ent.arity = N ∧ toks.length - 1 ≠ N := by
  rw [dispatchWithBuf]
  rcases htok : tokenize cap line with e | toks
  · have he : e = .empty := tokenize_error_empty cap line e htok
    subst he
    simp only []
    constructor
    · intro h
      cases h
    · rintro ⟨toks, ent, hok, -⟩
      cases hok
  · simp only []
    rcases hf : findEntry entries (toks.headD []) with _ | ent
    · simp only []
      constructor
      · intro h
        cases h
      · rintro ⟨toks', ent', hok, hfind, -⟩
        cases hok
        rw [hf] at hfind
        cases hfind
    · simp only []
      by_cases hne : toks.length - 1 ≠ ent.arity
      · rw [if_pos hne]
        constructor
        · intro h
          have : ent.arity = N := by
            have := (Except.error.injEq _ _ ▸ h)
            cases this
            rfl
          exact ⟨toks, ent, rfl, hf, this, this ▸ hne⟩
        · rintro ⟨toks', ent', hok, hfind, harity, -⟩
          cases hok
          rw [hf] at hfind
          cases hfind
          rw [harity]
      · rw [if_neg hne]
        have hmem : ent ∈ entries := List.mem_of_find?_eq_some hf
        constructor
        · intro h
          rcases hpr : ent.parser ctx0 (toks.drop 1) with e' | ctx
          · rw [hpr] at h
            simp only [] at h
            cases h
            exact absurd hpr (hp ent hmem ctx0 (toks.drop 1) N)
          · rw [hpr] at h
            simp only [] at h
            rcases hcl : ent.caller ctx with e'' | a
            · rw [hcl] at h
              simp only [] at h
              cases h
              exact absurd hcl (hc ent hmem ctx N)
            · rw [hcl] at h
              cases h
        · rintro ⟨toks', ent', hok, hfind, harity, hdiff⟩
          cases hok
          rw [hf] at hfind
          cases hfind
          exact absurd (harity ▸ hdiff) (by simpa using hne)

/-- Witness for `C8_wrong_arity`: for the generated `read` table the
line `read` (0 argument tokens against arity 2) reports
`WrongArity(expected=2)`. -/
theorem C8_wrong_arity_witness :
    dispatchWithBuf readEntries readCtx0 4 [114, 101, 97, 100] =
      .error (.wrongArity 2) := by
  have hp : ∀ e ∈ readEntries, ∀ ctx args m,
      e.parser ctx args ≠ Except.error (.wrongArity m) := by
    intro e he ctx args m
    simp only [readEntries, List.mem_singleton] at he
    subst he
    simp only [parseSpecBD]
    rcases h1 : parse_i8 (args.getD 0 []) with _ | v
    · simp
    · rcases h2 : parse_u32 (args.getD 1 []) with _ | w <;> simp
  have hc : ∀ e ∈ readEntries, ∀ ctx m,
      e.caller ctx ≠ Except.error (.wrongArity m) := by
    intro e he ctx m
    simp only [readEntries, List.mem_singleton] at he
    subst he
    simp [callerRead]
  refine (C8_wrong_arity readEntries readCtx0 4 [114, 101, 97, 100] 2 hp hc).mpr
    ⟨[[114, 101, 97, 100]], readEntries.headD ⟨[], 0, fun c _ => .ok c, fun _ => .error .empty⟩,
      ?_, ?_, ?_, ?_⟩
  · simp [tokenize, tokenizeAux, isSpaceTok]
  · rfl
  · simp [readEntries]
  · simp

/-! ## C7 — tokenizer round trip on quote- and tab-free lines -/

/-- Unfolding: the tokenizer on the empty line. -/
theorem tokenizeAux_nil (cap n : Nat) : tokenizeAux cap n [] = [] := by
  rw [tokenizeAux]

/-- Unfolding: a leading separator byte is skipped. -/
theorem tokenizeAux_space (cap n : Nat) (b : Nat) (bs : Bytes) (hb : isSpaceTok b = true) :
    tokenizeAux cap n (b :: bs) = tokenizeAux cap n bs := by
  rw [tokenizeAux]
  simp only [hb, if_true]

/-- Unfolding: an unquoted token is read up to the next separator. -/
theorem tokenizeAux_tok (cap n : Nat) (b : Nat) (bs : Bytes) (hb : isSpaceTok b = false)
    (hq : b ≠ 34) :
    tokenizeAux cap n (b :: bs) =
      if n < cap then
        (b :: bs.takeWhile (fun c => !isSpaceTok c)) ::
          tokenizeAux cap (n + 1) (bs.dropWhile (fun c => !isSpaceTok c))
      else tokenizeAux cap n (bs.dropWhile (fun c => !isSpaceTok c)) := by
  rw [tokenizeAux]
  simp only [hb, hq, if_false, Bool.false_eq_true]

/-- If every byte of `t` satisfies `p`, `takeWhile p` passes over `t`. -/
theorem takeWhile_append_all {p : Nat → Bool} {t l : Bytes} (h : ∀ c ∈ t, p c = true) :
    (t ++ l).takeWhile p = t ++ l.takeWhile p := by
  induction t with
  | nil => simp
  | cons a t ih =>
    have ha : p a = true := h a (List.mem_cons_self a t)
    rw [List.cons_append, List.takeWhile_cons, if_pos ha,
      ih (fun c hc => h c (List.mem_cons_of_mem a hc)), List.cons_append]

/-- If every byte of `t` satisfies `p`, `dropWhile p` passes over `t`. -/
theorem dropWhile_append_all {p : Nat → Bool} {t l : Bytes} (h : ∀ c ∈ t, p c = true) :
    (t ++ l).dropWhile p = l.dropWhile p := by
  induction t with
  | nil => simp
  | cons a t ih =>
    have ha : p a = true := h a (List.mem_cons_self a t)
    rw [List.cons_append, List.dropWhile_cons, if_pos ha]
    exact ih fun c hc => h c (List.mem_cons_of_mem a hc)

/-- Members of `takeWhile p l` are members of `l`. -/
theorem mem_of_takeWhile {p : Nat → Bool} : ∀ {l : Bytes} {c : Nat}, c ∈ l.takeWhile p → c ∈ l := by
  intro l
  induction l with
  | nil => intro c hc; simp [List.takeWhile] at hc
  | cons a l ih =>
    intro c hc
    rw [List.takeWhile_cons] at hc
    by_cases ha : p a = true
    · rw [if_pos ha] at hc
      rcases List.mem_cons.mp hc with rfl | hc
      · simp
      · simp [ih hc]
    · rw [if_neg ha] at hc
      cases hc

/-- On a line with no `"` and no tab, every produced token is non-empty
and contains no separator byte and no quote. -/
theorem tokenizeAux_tokens_wf (cap : Nat) : ∀ (n : Nat) (bytes : Bytes),
    (∀ c ∈ bytes, c ≠ 34 ∧ c ≠ 9) →
    ∀ tok ∈ tokenizeAux cap n bytes, tok ≠ [] ∧ ∀ c ∈ tok, c ≠ 34 ∧ c ≠ 9 ∧ c ≠ 32 := by
  intro n bytes
  induction n, bytes using tokenizeAux.induct cap with
  | case1 n =>
    intro _ tok htok
    rw [tokenizeAux_nil] at htok
    cases htok
  | case2 n b bs hb ih =>
    intro hline tok htok
    rw [tokenizeAux_space cap n b bs hb] at htok
    exact ih (fun c hc => hline c (by simp [hc])) tok htok
  | case3 n bs rest4 hlt hq34 ih =>
    intro hline _ _
    exact absurd rfl (hline 34 (by simp)).1
  | case4 n bs rest4 hge hq34 ih =>
    intro hline _ _
    exact absurd rfl (hline 34 (by simp)).1
  | case5 n b bs hb hq rest' hlt ih =>
    intro hline tok htok
    rw [tokenizeAux_tok cap n b bs (by simpa using hb) hq, if_pos hlt] at htok
    have hsub : ∀ c ∈ bs.dropWhile (fun c => !isSpaceTok c), c ≠ 34 ∧ c ≠ 9 :=
      fun c hc => hline c (by
        simp only [List.mem_cons]
        exact Or.inr ((List.dropWhile_suffix _).sublist.subset hc))
    rcases List.mem_cons.mp htok with rfl | htok
    · refine ⟨by simp, ?_⟩
      intro c hc
      rcases List.mem_cons.mp hc with rfl | hc
      · refine ⟨hq, ?_, ?_⟩ <;>
          (intro hcc; subst hcc; simp [isSpaceTok] at hb)
      · have hp : (!isSpaceTok c) = true := by
          have := List.mem_takeWhile_imp (p := fun c => !isSpaceTok c) (l := bs) hc
          simpa using this
        have hmem : c ∈ bs := mem_of_takeWhile hc
        have := hline c (by simp [hmem])
        refine ⟨this.1, this.2, ?_⟩
        intro hcc
        subst hcc
        simp [isSpaceTok] at hp
    · exact ih hsub tok htok
  | case6 n b bs hb hq rest' hge ih =>
    intro hline tok htok
    rw [tokenizeAux_tok cap n b bs (by simpa using hb) hq, if_neg hge] at htok
    have hsub : ∀ c ∈ bs.dropWhile (fun c => !isSpaceTok c), c ≠ 34 ∧ c ≠ 9 :=
      fun c hc => hline c (by
        simp only [List.mem_cons]
        exact Or.inr ((List.dropWhile_suffix _).sublist.subset hc))
    exact ih hsub tok htok

/-- Unfolding: a quoted token is read up to the closing quote; the
closing quote and any following non-space bytes are discarded. -/
theorem tokenizeAux_quote (cap n : Nat) (bs : Bytes) :
    tokenizeAux cap n (34 :: bs) =
      if n < cap then
        (bs.takeWhile (fun c => c ≠ 34)) ::
          tokenizeAux cap (n + 1)
            ((bs.dropWhile (fun c => c ≠ 34)).tail.dropWhile (fun c => !isSpaceTok c))
      else tokenizeAux cap n
        ((bs.dropWhile (fun c => c ≠ 34)).tail.dropWhile (fun c => !isSpaceTok c)) := by
  rw [tokenizeAux]
  simp [isSpaceTok]

/-- The tokenizer stores at most `cap - n` further tokens. -/
theorem tokenizeAux_length_le (cap : Nat) : ∀ (n : Nat) (bytes : Bytes),
    (tokenizeAux cap n bytes).length ≤ cap - n := by
  intro n bytes
  induction n, bytes using tokenizeAux.induct cap with
  | case1 n => rw [tokenizeAux_nil]; simp
  | case2 n b bs hb ih => rw [tokenizeAux_space cap n b bs hb]; exact ih
  | case3 n bs rest4 hlt hq34 ih =>
    rw [tokenizeAux_quote cap n bs, if_pos hlt]
    have ih' : (tokenizeAux cap (n + 1)
        ((bs.dropWhile (fun c => c ≠ 34)).tail.dropWhile (fun c => !isSpaceTok c))).length ≤
          cap - (n + 1) := ih
    simp only [List.length_cons]
    omega
  | case4 n bs rest4 hge hq34 ih =>
    rw [tokenizeAux_quote cap n bs, if_neg hge]
    have ih' : (tokenizeAux cap n
        ((bs.dropWhile (fun c => c ≠ 34)).tail.dropWhile (fun c => !isSpaceTok c))).length ≤
          cap - n := ih
    omega
  | case5 n b bs hb hq rest' hlt ih =>
    rw [tokenizeAux_tok cap n b bs (by simpa using hb) hq, if_pos hlt]
    have ih' : (tokenizeAux cap (n + 1)
        (bs.dropWhile (fun c => !isSpaceTok c))).length ≤ cap - (n + 1) := ih
    simp only [List.length_cons]
    omega
  | case6 n b bs hb hq rest' hge ih =>
    rw [tokenizeAux_tok cap n b bs (by simpa using hb) hq, if_neg hge]
    have ih' : (tokenizeAux cap n
        (bs.dropWhile (fun c => !isSpaceTok c))).length ≤ cap - n := ih
    omega

/-- Unfolding `joinTokens` on a two-or-more-element list. -/
theorem joinTokens_cons₂ (t t' : Bytes) (rest : List Bytes) :
    joinTokens (t :: t' :: rest) = t ++ 32 :: joinTokens (t' :: rest) := rfl

/-- Joining tokens with single spaces. -/
theorem tokenizeAux_join (cap : Nat) (ts : List Bytes)
    (hts : ∀ t ∈ ts, t ≠ [] ∧ ∀ c ∈ t, c ≠ 34 ∧ c ≠ 9 ∧ c ≠ 32) :
    ∀ n, tokenizeAux cap n (joinTokens ts) = ts.take (cap - n) := by
  induction ts with
  | nil => intro n; rw [joinTokens, tokenizeAux_nil]; simp
  | cons t rest ih =>
    intro n
    obtain ⟨hne, hin⟩ := hts t (by simp)
    obtain ⟨b, bs', rfl⟩ := List.exists_cons_of_ne_nil hne
    have hball : ∀ c ∈ b :: bs', c ≠ 34 ∧ c ≠ 9 ∧ c ≠ 32 := hin
    have hb32 : b ≠ 32 := (hball b (by simp)).2.2
    have hb9 : b ≠ 9 := (hball b (by simp)).2.1
    have hb34 : b ≠ 34 := (hball b (by simp)).1
    have hbsp : isSpaceTok b = false := by simp [isSpaceTok, hb32, hb9]
    have hbs'all : ∀ c ∈ bs', (!isSpaceTok c) = true := by
      intro c hc
      have := hball c (by simp [hc])
      simp [isSpaceTok, this.2.1, this.2.2]
    cases rest with
    | nil =>
      rw [joinTokens]
      rw [tokenizeAux_tok cap n b bs' hbsp hb34]
      rw [List.takeWhile_eq_self_iff.mpr hbs'all, List.dropWhile_eq_nil_iff.mpr
        (fun c hc => hbs'all c hc)]
      by_cases hlt : n < cap
      · rw [if_pos hlt, tokenizeAux_nil]
        have : cap - n = (cap - n - 1) + 1 := by omega
        rw [this]
        simp
      · rw [if_neg hlt, tokenizeAux_nil]
        have : cap - n = 0 := by omega
        rw [this]
        simp
    | cons t' rest' =>
      rw [joinTokens_cons₂]
      have hjoin : tokenizeAux cap n ((b :: bs') ++ 32 :: joinTokens (t' :: rest')) =
          tokenizeAux cap n (b :: (bs' ++ 32 :: joinTokens (t' :: rest'))) := by
        simp
      rw [hjoin]
      rw [tokenizeAux_tok cap n b (bs' ++ 32 :: joinTokens (t' :: rest')) hbsp hb34]
      rw [takeWhile_append_all hbs'all, dropWhile_append_all hbs'all]
      have htw : (32 :: joinTokens (t' :: rest')).takeWhile (fun c => !isSpaceTok c) = [] := by
        simp [List.takeWhile_cons, isSpaceTok]
      have hdw : (32 :: joinTokens (t' :: rest')).dropWhile (fun c => !isSpaceTok c) =
          32 :: joinTokens (t' :: rest') := by
        simp [List.dropWhile_cons, isSpaceTok]
      rw [htw, hdw, List.append_nil]
      have ihrest := ih (fun t ht => hts t (by simp [ht]))
      by_cases hlt : n < cap
      · rw [if_pos hlt]
        rw [tokenizeAux_space cap (n + 1) 32 _ (by simp [isSpaceTok])]
        rw [ihrest (n + 1)]
        have : cap - n = (cap - (n + 1)) + 1 := by omega
        rw [this]
        simp
      · rw [if_neg hlt]
        rw [tokenizeAux_space cap n 32 _ (by simp [isSpaceTok])]
        rw [ihrest n]
        have h0 : cap - n = 0 := by omega
        rw [h0]
        simp

/-- Claim C7: for every input line containing no double quotes and no
tabs, tokenizing it, joining the resulting tokens with single spaces,
and tokenizing again yields the same sequence of tokens as the first
tokenization (for any token-buffer capacity `cap`). -/
theorem C7_tokenizer_round_trip (cap : Nat) (line : Bytes)
    (h34 : ∀ c ∈ line, c ≠ 34) (h9 : ∀ c ∈ line, c ≠ 9) :
    tokenizeAux cap 0 (joinTokens (tokenizeAux cap 0 line)) = tokenizeAux cap 0 line := by
  have hwf := tokenizeAux_tokens_wf cap 0 line (fun c hc => ⟨h34 c hc, h9 c hc⟩)
  rw [tokenizeAux_join cap (tokenizeAux cap 0 line) hwf 0]
  have hlen := tokenizeAux_length_le cap 0 line
  exact List.take_of_length_le (by omega)

/-- Witness for `C7_tokenizer_round_trip` at `cap = 4`,
`line = "ab  cd"`. -/
theorem C7_tokenizer_round_trip_witness :
    tokenizeAux 4 0 (joinTokens (tokenizeAux 4 0 [97, 98, 32, 32, 99, 100])) =
      tokenizeAux 4 0 [97, 98, 32, 32, 99, 100] :=
  C7_tokenizer_round_trip 4 [97, 98, 32, 32, 99, 100] (by decide) (by decide)

/-! ## C5, C9 — autocomplete filtering, completion and cycling -/

/-- `hlPushStr` starting from the empty string. -/
theorem hlPushStr_nil (cap : Nat) (t : Bytes) :
    hlPushStr cap [] t = if t.length ≤ cap then t else [] := by
  simp [hlPushStr]

/-- Elements produced by the candidate-loading loop come from the
accumulator or the source list. -/
theorem mem_hlPushAllBreak (cap : Nat) :
    ∀ (xs v : List Bytes) (e : Bytes), e ∈ hlPushAllBreak cap v xs → e ∈ v ∨ e ∈ xs := by
  intro xs
  induction xs with
  | nil => intro v e he; exact Or.inl he
  | cons x xs ih =>
    intro v e he
    rw [hlPushAllBreak] at he
    by_cases hcap : v.length + 1 ≤ cap
    · rw [if_pos hcap] at he
      rcases ih (v ++ [x]) e he with hv | hx
      · rcases List.mem_append.mp hv with hv | hv
        · exact Or.inl hv
        · exact Or.inr (by simpa using Or.inl (List.mem_singleton.mp hv))
      · exact Or.inr (by simp [hx])
    · rw [if_neg hcap] at he
      exact Or.inl he

/-- Elements of the filter fold come from the accumulator or are
candidates that start with the input. -/
theorem mem_filter_foldl (NAC : Nat) (input : Bytes) :
    ∀ (cands acc : List Bytes) (e : Bytes),
      e ∈ cands.foldl (fun acc c => if input.isPrefixOf c then
          (if acc.length + 1 ≤ NAC then acc ++ [c] else acc) else acc) acc →
      e ∈ acc ∨ (e ∈ cands ∧ input.isPrefixOf e = true) := by
  intro cands
  induction cands with
  | nil => intro acc e he; exact Or.inl he
  | cons c cands ih =>
    intro acc e he
    rw [List.foldl_cons] at he
    rcases ih _ e he with hacc | ⟨hmem, hpre⟩
    · by_cases hp : input.isPrefixOf c = true
      · rw [if_pos hp] at hacc
        by_cases hcap : acc.length + 1 ≤ NAC
        · rw [if_pos hcap] at hacc
          rcases List.mem_append.mp hacc with h | h
          · exact Or.inl h
          · cases List.mem_singleton.mp h
            exact Or.inr ⟨by simp, hp⟩
        · rw [if_neg hcap] at hacc
          exact Or.inl hacc
      · rw [if_neg hp] at hacc
        exact Or.inl hacc
    · exact Or.inr ⟨by simp [hmem], hpre⟩

/-- A strictly shorter prefix is a prefix of `dropLast`. -/
theorem prefix_dropLast_of_lt {q p : Bytes} (h : q <+: p) (hlt : q.length < p.length) :
    q <+: p.dropLast := by
  rw [List.prefix_iff_eq_take] at h ⊢
  rw [List.dropLast_eq_take, List.take_take]
  rw [show q.length ⊓ (p.length - 1) = q.length by omega]
  exact h

/-- `shrinkToCommon p s` is a prefix of `p`. -/
theorem shrinkToCommon_prefix_left : ∀ (p s : Bytes), shrinkToCommon p s <+: p := by
  intro p s
  induction p, s using shrinkToCommon.induct with
  | case1 p s hp => rw [shrinkToCommon, if_pos hp]
  | case2 s hp =>
    exact absurd (by simp) hp
  | case3 p s hp hnil ih =>
    rw [shrinkToCommon, if_neg hp, if_neg hnil]
    exact ih.trans (by
      rw [List.dropLast_eq_take]
      exact ⟨p.drop (p.length - 1), List.take_append_drop _ p⟩)

/-- `shrinkToCommon p s` is a prefix of `s`. -/
theorem shrinkToCommon_prefix_right : ∀ (p s : Bytes), shrinkToCommon p s <+: s := by
  intro p s
  induction p, s using shrinkToCommon.induct with
  | case1 p s hp =>
    rw [shrinkToCommon, if_pos hp]
    exact List.isPrefixOf_iff_prefix.mp hp
  | case2 s hp =>
    exact absurd (by simp) hp
  | case3 p s hp hnil ih =>
    rw [shrinkToCommon, if_neg hp, if_neg hnil]
    exact ih

/-- `shrinkToCommon p s` is the *longest* common prefix of `p` and `s`. -/
theorem shrinkToCommon_max : ∀ (p s q : Bytes), q <+: p → q <+: s →
    q.length ≤ (shrinkToCommon p s).length := by
  intro p s
  induction p, s using shrinkToCommon.induct with
  | case1 p s hp =>
    intro q hq _
    rw [shrinkToCommon, if_pos hp]
    exact hq.length_le
  | case2 s hp =>
    exact absurd (by simp) hp
  | case3 p s hp hnil ih =>
    intro q hq hs
    rw [shrinkToCommon, if_neg hp, if_neg hnil]
    refine ih q ?_ hs
    rcases Nat.lt_or_ge q.length p.length with hlt | hge
    · exact prefix_dropLast_of_lt hq hlt
    · exfalso
      have : q = p := List.IsPrefix.eq_of_length hq (by
        have := hq.length_le
        omega)
      subst this
      exact hp (by simpa using List.isPrefixOf_iff_prefix.mpr hs)

/-- The fold of `shrinkToCommon` computes a common prefix of the seed
and all list elements. -/
theorem foldl_shrink_common : ∀ (rest : List Bytes) (p0 : Bytes),
    (rest.foldl shrinkToCommon p0 <+: p0) ∧
      ∀ s ∈ rest, rest.foldl shrinkToCommon p0 <+: s := by
  intro rest
  induction rest with
  | nil => intro p0; exact ⟨List.prefix_rfl, by simp⟩
  | cons s rest ih =>
    intro p0
    rw [List.foldl_cons]
    obtain ⟨h1, h2⟩ := ih (shrinkToCommon p0 s)
    refine ⟨h1.trans (shrinkToCommon_prefix_left p0 s), ?_⟩
    intro x hx
    rcases List.mem_cons.mp hx with rfl | hx
    · exact h1.trans (shrinkToCommon_prefix_right p0 x)
    · exact h2 x hx

/-- The fold of `shrinkToCommon` computes the *longest* common prefix. -/
theorem foldl_shrink_max : ∀ (rest : List Bytes) (p0 q : Bytes),
    q <+: p0 → (∀ s ∈ rest, q <+: s) →
    q.length ≤ (rest.foldl shrinkToCommon p0).length := by
  intro rest
  induction rest with
  | nil => intro p0 q hq _; exact hq.length_le
  | cons s rest ih =>
    intro p0 q hq hall
    rw [List.foldl_cons]
    refine ih (shrinkToCommon p0 s) q ?_ (fun x hx => hall x (by simp [hx]))
    exact List.prefix_of_prefix_length_le hq (shrinkToCommon_prefix_left p0 s)
      (shrinkToCommon_max p0 s q hq (hall s (by simp)))

/-- Unfolding `lcpOfList` on a non-empty list. -/
theorem lcpOfList_cons (FNL : Nat) (p0 : Bytes) (rest : List Bytes) :
    lcpOfList FNL (p0 :: rest) = hlPushStr FNL [] (rest.foldl shrinkToCommon p0) := rfl

/-- Claim C5: for every prefix `p`, after `update_input(p)` every entry
of the filtered list starts with `p`; if the filtered list has exactly
one entry, `current_input` is that entry followed by a single space; if
it has more than one entry, `current_input` is the longest common prefix
of the filtered entries (characterised as: a common prefix of all
filtered entries of maximal length).  The two completion clauses assume
what the generated command table guarantees: every candidate name fits
an `FNL`-capacity string together with one trailing space
(`FNL = MAX_FUNCTION_NAME_LEN = longest name + 1`). -/
theorem C5_autocomplete_invariant (NAC FNL : Nat) (getCand : Nat → List Bytes)
    (st : Autocomplete) (p : Bytes)
    (hc : ∀ e ∈ st.candidates, e.length + 1 ≤ FNL)
    (hg : ∀ ch, ∀ e ∈ getCand ch, e.length + 1 ≤ FNL) :
    (∀ e ∈ (st.updateInput NAC FNL getCand p).filtered, p <+: e) ∧
    ((st.updateInput NAC FNL getCand p).filtered.length = 1 →
      (st.updateInput NAC FNL getCand p).input =
        (st.updateInput NAC FNL getCand p).filtered.getD 0 [] ++ [32]) ∧
    ((st.updateInput NAC FNL getCand p).filtered.length > 1 →
      (∀ e ∈ (st.updateInput NAC FNL getCand p).filtered,
          (st.updateInput NAC FNL getCand p).input <+: e) ∧
        ∀ q, (∀ e ∈ (st.updateInput NAC FNL getCand p).filtered, q <+: e) →
          q.length ≤ (st.updateInput NAC FNL getCand p).input.length) := by
  by_cases hfit : p.length ≤ FNL
  case neg =>
    have hinput : hlPushStr FNL [] p = [] := by
      rw [hlPushStr_nil, if_neg hfit]
    simp [Autocomplete.updateInput, hinput]
  case pos =>
    cases p with
    | nil =>
      have hinput : hlPushStr FNL [] ([] : Bytes) = [] := by simp [hlPushStr]
      simp [Autocomplete.updateInput, hinput]
    | cons c ps =>
      have hinput : hlPushStr FNL [] (c :: ps) = c :: ps := by
        rw [hlPushStr_nil, if_pos hfit]
      simp only [Autocomplete.updateInput, hinput, List.head?_cons, apply_ite
        Autocomplete.candidates, apply_ite Autocomplete.firstCharLoaded]
      generalize hFC : (if st.firstCharLoaded ≠ some c then some c else st.firstCharLoaded) = FC
      generalize hCS : (if st.firstCharLoaded ≠ some c then hlPushAllBreak NAC [] (getCand c)
        else st.candidates) = CS
      have hcsc : ∀ e ∈ CS, e.length + 1 ≤ FNL := by
        rw [← hCS]
        split_ifs with hcond
        · intro e he
          rcases mem_hlPushAllBreak NAC (getCand c) [] e he with h | h
          · cases h
          · exact hg c e h
        · exact hc
      generalize hF : List.foldl (fun acc cand => if (c :: ps).isPrefixOf cand = true then
          (if acc.length + 1 ≤ NAC then acc ++ [cand] else acc) else acc) [] CS = F
      have hmemF : ∀ e ∈ F, e ∈ CS ∧ (c :: ps).isPrefixOf e = true := by
        rw [← hF]
        intro e he
        rcases mem_filter_foldl NAC (c :: ps) CS [] e he with h | h
        · cases h
        · exact h
      have hflen : ∀ e ∈ F, e.length + 1 ≤ FNL := fun e he => hcsc e (hmemF e he).1
      have hfpre : ∀ e ∈ F, (c :: ps) <+: e :=
        fun e he => List.isPrefixOf_iff_prefix.mp (hmemF e he).2
      split_ifs with h1 h2 <;> dsimp only <;>
        refine ⟨hfpre, ?_, ?_⟩ <;>
        first
        | (intro hx; omega)
        | (intro hx -- single filtered entry: completion with a trailing space
           obtain ⟨e, hfe⟩ := List.length_eq_one.mp hx
           have he : e ∈ F := by rw [hfe]; simp
           have hlen := hflen e he
           rw [hfe]
           simp only [List.getD_cons_zero, hlPushStr_nil, hlPush]
           rw [if_pos (show e.length ≤ FNL by omega)]
           rw [if_pos (show e.length + 1 ≤ FNL by omega)])
        | (intro hgt -- several filtered entries: longest common prefix
           obtain ⟨p0, rest, hfe⟩ := List.exists_cons_of_ne_nil
             (show F ≠ [] from fun hnil => by simp [hnil] at hgt)
           rw [hfe, lcpOfList_cons]
           obtain ⟨hlp, hla⟩ := foldl_shrink_common rest p0
           have hp0 : p0 ∈ F := by rw [hfe]; simp
           have hlen1 := hlp.length_le
           have hlen2 := hflen p0 hp0
           rw [hlPushStr_nil, if_pos (by omega)]
           constructor
           · intro e he
             rcases List.mem_cons.mp he with rfl | he
             · exact hlp
             · exact hla e he
           · intro q hq
             refine foldl_shrink_max rest p0 q (hq p0 (by simp)) ?_
             intro s hs
             exact hq s (by simp [hs]))

/-- Witness for `C5_autocomplete_invariant` with candidates `alpha`,
`alpine`, prefix `al`, `NAC = 4`, `FNL = 8`. -/
theorem C5_autocomplete_invariant_witness :
    (∀ e ∈ (Autocomplete.new.updateInput 4 8 demoCands [97, 108]).filtered,
        [97, 108] <+: e) ∧
    ((Autocomplete.new.updateInput 4 8 demoCands [97, 108]).filtered.length = 1 →
      (Autocomplete.new.updateInput 4 8 demoCands [97, 108]).input =
        (Autocomplete.new.updateInput 4 8 demoCands [97, 108]).filtered.getD 0 [] ++ [32]) ∧
    ((Autocomplete.new.updateInput 4 8 demoCands [97, 108]).filtered.length > 1 →
      (∀ e ∈ (Autocomplete.new.updateInput 4 8 demoCands [97, 108]).filtered,
          (Autocomplete.new.updateInput 4 8 demoCands [97, 108]).input <+: e) ∧
        ∀ q, (∀ e ∈ (Autocomplete.new.updateInput 4 8 demoCands [97, 108]).filtered,
            q <+: e) →
          q.length ≤ (Autocomplete.new.updateInput 4 8 demoCands [97, 108]).input.length) :=
  C5_autocomplete_invariant 4 8 demoCands Autocomplete.new [97, 108] (by decide)
    (by intro ch; rw [demoCands]; decide)

/-- `update_input` always resets the cycle index to 0. -/
theorem updateInput_tabIndex (NAC FNL : Nat) (getCand : Nat → List Bytes)
    (st : Autocomplete) (p : Bytes) :
    (st.updateInput NAC FNL getCand p).tabIndex = 0 := by
  rw [Autocomplete.updateInput]
  rcases hh : (hlPushStr FNL [] p).head? with _ | c
  · rfl
  · simp only []
    split_ifs <;> rfl

/-- Every filtered entry after `update_input` obeys the candidate length
bound. -/
theorem updateInput_filtered_bound (NAC FNL : Nat) (getCand : Nat → List Bytes)
    (st : Autocomplete) (p : Bytes)
    (hc : ∀ e ∈ st.candidates, e.length + 1 ≤ FNL)
    (hg : ∀ ch, ∀ e ∈ getCand ch, e.length + 1 ≤ FNL) :
    ∀ e ∈ (st.updateInput NAC FNL getCand p).filtered, e.length + 1 ≤ FNL := by
  by_cases hfit : p.length ≤ FNL
  case neg =>
    have hinput : hlPushStr FNL [] p = [] := by
      rw [hlPushStr_nil, if_neg hfit]
    simp [Autocomplete.updateInput, hinput]
  case pos =>
    cases p with
    | nil =>
      have hinput : hlPushStr FNL [] ([] : Bytes) = [] := by simp [hlPushStr]
      simp [Autocomplete.updateInput, hinput]
    | cons c ps =>
      have hinput : hlPushStr FNL [] (c :: ps) = c :: ps := by
        rw [hlPushStr_nil, if_pos hfit]
      simp only [Autocomplete.updateInput, hinput, List.head?_cons, apply_ite
        Autocomplete.candidates, apply_ite Autocomplete.firstCharLoaded]
      generalize (if st.firstCharLoaded ≠ some c then some c else st.firstCharLoaded) = FC
      generalize hCS : (if st.firstCharLoaded ≠ some c then hlPushAllBreak NAC [] (getCand c)
        else st.candidates) = CS
      have hcsc : ∀ e ∈ CS, e.length + 1 ≤ FNL := by
        rw [← hCS]
        split_ifs with hcond
        · intro e he
          rcases mem_hlPushAllBreak NAC (getCand c) [] e he with h | h
          · cases h
          · exact hg c e h
        · exact hc
      generalize hF : List.foldl (fun acc cand => if (c :: ps).isPrefixOf cand = true then
          (if acc.length + 1 ≤ NAC then acc ++ [cand] else acc) else acc) [] CS = F
      have hmemF : ∀ e ∈ F, e ∈ CS ∧ (c :: ps).isPrefixOf e = true := by
        rw [← hF]
        intro e he
        rcases mem_filter_foldl NAC (c :: ps) CS [] e he with h | h
        · cases h
        · exact h
      split_ifs <;> dsimp only <;> exact fun e he => hcsc e (hmemF e he).1

/-- Iterated `cycle_forward` rotates the cycle index modulo the
filtered-list length and leaves the filtered list unchanged. -/
theorem cycles_mod (FNL : Nat) (st' : Autocomplete) (htab : st'.tabIndex = 0)
    (hne : ¬st'.filtered.isEmpty = true) (hn2 : 2 ≤ st'.filtered.length) :
    ∀ k, (st'.cycles FNL k).tabIndex = k % st'.filtered.length ∧
      (st'.cycles FNL k).filtered = st'.filtered := by
  intro k
  induction k with
  | zero => simp [Autocomplete.cycles, htab]
  | succ k ih =>
    rw [Autocomplete.cycles]
    obtain ⟨ih1, ih2⟩ := ih
    rw [Autocomplete.cycleForward, if_neg (by rw [ih2]; exact hne)]
    dsimp only
    refine ⟨?_, ih2⟩
    rw [ih1, ih2]
    conv_rhs => rw [Nat.add_mod]
    rw [Nat.mod_eq_of_lt (show 1 < st'.filtered.length by omega)]

/-- Claim C9: immediately after `update_input` leaves a filtered list of
`n ≥ 2` candidates (cycle index reset to 0), the first `cycle_forward()`
selects index 1 — the *second* filtered candidate, with a trailing
space — not the first; after `k` cycles the selected index is `k % n`,
so index 0 (the first candidate) is reproduced only once the whole list
has been cycled through (`k = n`), never for `1 ≤ k < n`. -/
theorem C9_cycle_forward (NAC FNL : Nat) (getCand : Nat → List Bytes)
    (st : Autocomplete) (p : Bytes)
    (hc : ∀ e ∈ st.candidates, e.length + 1 ≤ FNL)
    (hg : ∀ ch, ∀ e ∈ getCand ch, e.length + 1 ≤ FNL)
    (h2 : (st.updateInput NAC FNL getCand p).filtered.length ≥ 2) :
    ((st.updateInput NAC FNL getCand p).cycleForward FNL).input =
      (st.updateInput NAC FNL getCand p).filtered.getD 1 [] ++ [32] ∧
    ((st.updateInput NAC FNL getCand p).cycleForward FNL).tabIndex = 1 ∧
    (∀ k, ((st.updateInput NAC FNL getCand p).cycles FNL k).tabIndex =
        k % (st.updateInput NAC FNL getCand p).filtered.length ∧
      ((st.updateInput NAC FNL getCand p).cycles FNL k).filtered =
        (st.updateInput NAC FNL getCand p).filtered) ∧
    (∀ k, 1 ≤ k → k < (st.updateInput NAC FNL getCand p).filtered.length →
      ((st.updateInput NAC FNL getCand p).cycles FNL k).tabIndex ≠ 0) ∧
    ((st.updateInput NAC FNL getCand p).cycles FNL
        ((st.updateInput NAC FNL getCand p).filtered.length)).tabIndex = 0 := by
  have htab := updateInput_tabIndex NAC FNL getCand st p
  have hbound := updateInput_filtered_bound NAC FNL getCand st p hc hg
  have hne : ¬(st.updateInput NAC FNL getCand p).filtered.isEmpty = true := by
    intro h
    rw [List.isEmpty_iff] at h
    rw [h] at h2
    simp at h2
  have hcyc := cycles_mod FNL (st.updateInput NAC FNL getCand p) htab hne h2
  have hfirst : ((st.updateInput NAC FNL getCand p).cycleForward FNL).input =
      (st.updateInput NAC FNL getCand p).filtered.getD 1 [] ++ [32] ∧
      ((st.updateInput NAC FNL getCand p).cycleForward FNL).tabIndex = 1 := by
    rw [Autocomplete.cycleForward, if_neg hne]
    dsimp only
    rw [htab]
    have hidx : (0 + 1) % (st.updateInput NAC FNL getCand p).filtered.length = 1 :=
      Nat.mod_eq_of_lt (by omega)
    rw [hidx]
    have hmem : (st.updateInput NAC FNL getCand p).filtered.getD 1 [] ∈
        (st.updateInput NAC FNL getCand p).filtered := by
      rw [List.getD_eq_getElem?_getD, List.getElem?_eq_getElem (by omega)]
      exact List.getElem_mem _
    have hlen := hbound _ hmem
    rw [hlPushStr_nil, if_pos (by omega)]
    rw [hlPush, if_pos (by omega)]
    exact ⟨rfl, rfl⟩
  refine ⟨hfirst.1, hfirst.2, hcyc, ?_, ?_⟩
  · intro k h1k hklt
    rw [(hcyc k).1, Nat.mod_eq_of_lt hklt]
    omega
  · rw [(hcyc _).1, Nat.mod_self]

/-- Witness for `C9_cycle_forward` with candidates `alpha`, `alpine`,
prefix `al`, `NAC = 4`, `FNL = 8` (two filtered matches). -/
theorem C9_cycle_forward_witness :
    ((Autocomplete.new.updateInput 4 8 demoCands [97, 108]).cycleForward 8).input =
      (Autocomplete.new.updateInput 4 8 demoCands [97, 108]).filtered.getD 1 [] ++ [32] ∧
    ((Autocomplete.new.updateInput 4 8 demoCands [97, 108]).cycleForward 8).tabIndex = 1 ∧
    (∀ k, ((Autocomplete.new.updateInput 4 8 demoCands [97, 108]).cycles 8 k).tabIndex =
        k % (Autocomplete.new.updateInput 4 8 demoCands [97, 108]).filtered.length ∧
      ((Autocomplete.new.updateInput 4 8 demoCands [97, 108]).cycles 8 k).filtered =
        (Autocomplete.new.updateInput 4 8 demoCands [97, 108]).filtered) ∧
    (∀ k, 1 ≤ k → k < (Autocomplete.new.updateInput 4 8 demoCands [97, 108]).filtered.length →
      ((Autocomplete.new.updateInput 4 8 demoCands [97, 108]).cycles 8 k).tabIndex ≠ 0) ∧
    ((Autocomplete.new.updateInput 4 8 demoCands [97, 108]).cycles 8
        ((Autocomplete.new.updateInput 4 8 demoCands [97, 108]).filtered.length)).tabIndex = 0 :=
  C9_cycle_forward 4 8 demoCands Autocomplete.new [97, 108] (by decide)
    (by intro ch; rw [demoCands]; decide)
    (by decide)


/-! ## C4 — `History::push` helper lemmas -/

/-- Bitwise `(a << 8) | b` is `256 * a + b` when `b` fits in a byte. -/
theorem lor_comb (a b : Nat) (hb : b < 256) : (a <<< 8) ||| b = 256 * a + b := by
  apply Nat.eq_of_testBit_eq
  intro i
  rw [Nat.testBit_lor, Nat.testBit_shiftLeft]
  rcases Nat.lt_or_ge i 8 with hi | hi
  · have h1 : (decide (8 ≤ i) && a.testBit (i - 8)) = false := by
      simp [Nat.not_le.mpr hi]
    rw [h1, Bool.false_or]
    have h2 : (256 * a + b) % 2 ^ 8 = b := by
      show (256 * a + b) % 256 = b
      omega
    conv_lhs => rw [← h2]
    rw [Nat.testBit_mod_two_pow]
    simp [hi]
  · have h1 : b.testBit i = false := by
      apply Nat.testBit_lt_two_pow
      calc b < 256 := hb
        _ = 2 ^ 8 := by norm_num
        _ ≤ 2 ^ i := Nat.pow_le_pow_right (by norm_num) hi
    rw [h1, Bool.or_false]
    have hdiv : (256 * a + b) >>> 8 = a := by
      rw [Nat.shiftRight_eq_div_pow]
      show (256 * a + b) / 256 = a
      omega
    have h3 : (256 * a + b).testBit i = a.testBit (i - 8) := by
      conv_lhs => rw [← Nat.add_sub_cancel' hi, ← Nat.testBit_shiftRight, hdiv]
    rw [h3]
    simp [hi]

/-- Reassembling the two stored length bytes recovers the length. -/
theorem read_write_len (len : Nat) (h : len ≤ 65535) :
    ((len >>> 8) % 256) <<< 8 ||| (len % 256) = len := by
  rw [lor_comb _ _ (Nat.mod_lt _ (by norm_num))]
  rw [Nat.shiftRight_eq_div_pow]
  show 256 * (len / 2 ^ 8 % 256) + len % 256 = len
  have : len / 2 ^ 8 % 256 = len / 256 := by
    have : len / 2 ^ 8 = len / 256 := by norm_num
    rw [this]
    exact Nat.mod_eq_of_lt (by omega)
  rw [this]
  omega

/-- `List.set` at a different index leaves `getD` unchanged. -/
theorem getD_set_ne (d : List Nat) (i j v : Nat) (h : i ≠ j) :
    (d.set i v).getD j 0 = d.getD j 0 := by
  simp [List.getD_eq_getElem?_getD, List.getElem?_set_ne h]

/-- `List.set` at an in-bounds index is read back by `getD`. -/
theorem getD_set_self (d : List Nat) (i v : Nat) (h : i < d.length) :
    (d.set i v).getD i 0 = v := by
  simp [List.getD_eq_getElem?_getD, List.getElem?_set_self h]

/-- Distinct offsets below the modulus stay distinct after a common
shift and reduction. -/
theorem mod_shift_ne (n p x y : Nat) (hx : x < n) (hy : y < n) (hne : x ≠ y) :
    (p + x) % n ≠ (p + y) % n := by
  intro h
  have h1 : x ≡ y [MOD n] := Nat.ModEq.add_left_cancel' p h
  have h2 : x % n = y % n := h1
  rw [Nat.mod_eq_of_lt hx, Nat.mod_eq_of_lt hy] at h2
  exact hne h2

/-- `write_length_at` preserves the buffer length. -/
theorem writeLengthAt_length (HTC : Nat) (d : List Nat) (pos len : Nat) :
    (writeLengthAt HTC d pos len).length = d.length := by
  simp [writeLengthAt]

/-- `write_length_at` leaves all other positions unchanged. -/
theorem getD_writeLengthAt_ne (HTC : Nat) (d : List Nat) (pos len q : Nat)
    (h1 : q ≠ pos) (h2 : q ≠ (pos + 1) % HTC) :
    (writeLengthAt HTC d pos len).getD q 0 = d.getD q 0 := by
  rw [writeLengthAt, getD_set_ne _ _ _ _ (Ne.symm h2), getD_set_ne _ _ _ _ (Ne.symm h1)]

/-- The data-write loop preserves the buffer length. -/
theorem writeBytesLoop_length (HTC : Nat) (bs : Bytes) :
    ∀ (d : List Nat) (pos : Nat), (writeBytesLoop HTC d pos bs).1.length = d.length := by
  induction bs with
  | nil => intro d pos; rfl
  | cons b rest ih =>
    intro d pos
    rw [writeBytesLoop, ih]
    simp

/-- The data-write loop advances the write position by the number of
bytes written. -/
theorem writeBytesLoop_pos (HTC : Nat) (bs : Bytes) :
    ∀ (d : List Nat) (pos : Nat), pos < HTC →
      (writeBytesLoop HTC d pos bs).2 = (pos + bs.length) % HTC := by
  induction bs with
  | nil =>
    intro d pos hpos
    simp [writeBytesLoop, Nat.mod_eq_of_lt hpos]
  | cons b rest ih =>
    intro d pos hpos
    have h0 : 0 < HTC := by omega
    rw [writeBytesLoop, ih _ _ (Nat.mod_lt _ h0), Nat.mod_add_mod]
    simp [Nat.add_assoc, Nat.add_comm 1 rest.length]

/-- The data-write loop leaves positions outside its write window
unchanged. -/
theorem writeBytesLoop_getD_ne (HTC : Nat) (bs : Bytes) :
    ∀ (d : List Nat) (pos q : Nat), pos < HTC →
      (∀ i < bs.length, q ≠ (pos + i) % HTC) →
      (writeBytesLoop HTC d pos bs).1.getD q 0 = d.getD q 0 := by
  induction bs with
  | nil => intro d pos q _ _; rfl
  | cons b rest ih =>
    intro d pos q hpos hq
    have h0 : 0 < HTC := by omega
    have hq0 : q ≠ pos := by
      have := hq 0 (by simp)
      rwa [Nat.add_zero, Nat.mod_eq_of_lt hpos] at this
    rw [writeBytesLoop, ih _ _ _ (Nat.mod_lt _ h0), getD_set_ne _ _ _ _ (Ne.symm hq0)]
    intro i hi
    rw [Nat.mod_add_mod]
    have h2 : pos + 1 + i = pos + (i + 1) := by omega
    rw [h2]
    exact hq (i + 1) (by simpa using Nat.succ_lt_succ hi)


/-- The data-write loop reads back every byte it wrote (the window fits
in the buffer, so later writes never clobber earlier ones). -/
theorem writeBytesLoop_getD_read (HTC : Nat) (bs : Bytes) :
    ∀ (d : List Nat) (pos : Nat), pos < HTC → bs.length ≤ HTC → d.length = HTC →
      ∀ i < bs.length, (writeBytesLoop HTC d pos bs).1.getD ((pos + i) % HTC) 0 = bs.getD i 0 := by
  induction bs with
  | nil => intro d pos _ _ _ i hi; simp at hi
  | cons b rest ih =>
    intro d pos hpos hlen hd i hi
    have h0 : 0 < HTC := by omega
    rcases i with _ | k
    · rw [Nat.add_zero, Nat.mod_eq_of_lt hpos, writeBytesLoop]
      rw [writeBytesLoop_getD_ne HTC rest _ _ _ (Nat.mod_lt _ h0)]
      · exact getD_set_self d pos b (by omega)
      · intro j hj
        rw [Nat.mod_add_mod]
        have hne : (pos + 0) % HTC ≠ (pos + (1 + j)) % HTC := by
          apply mod_shift_ne HTC pos 0 (1 + j) h0
          · simp at hlen; omega
          · omega
        rw [Nat.add_zero, Nat.mod_eq_of_lt hpos] at hne
        have h3 : pos + 1 + j = pos + (1 + j) := by omega
        rw [h3]
        exact hne
    · rw [writeBytesLoop]
      have hstep : (pos + (k + 1)) % HTC = ((pos + 1) % HTC + k) % HTC := by
        rw [Nat.mod_add_mod]
        congr 1
        omega
      rw [hstep]
      have := ih (d.set pos b) ((pos + 1) % HTC) (Nat.mod_lt _ h0)
        (by simp at hlen ⊢; omega) (by simp [hd]) k (by simpa using Nat.lt_of_succ_lt_succ hi)
      simpa using this

/-- `usedSize` distributes over append. -/
theorem usedSize_append (xs ys : List Bytes) :
    usedSize (xs ++ ys) = usedSize xs + usedSize ys := by
  simp [usedSize]

/-- Trimming only removes bytes. -/
theorem trimBytes_subset (s : Bytes) : ∀ b ∈ trimBytes s, b ∈ s := by
  intro b hb
  simp only [trimBytes, List.mem_reverse] at hb
  have h1 := (List.dropWhile_suffix (l := (s.dropWhile isWsB).reverse) isWsB).sublist.subset hb
  rw [List.mem_reverse] at h1
  exact (List.dropWhile_suffix isWsB).sublist.subset h1

/-- Pointwise reading of the byte comparison inside `is_duplicate`. -/
theorem matchesAt_iff (HTC : Nat) (d : List Nat) (dp : Nat) (bs : Bytes) :
    ∀ j, matchesAt HTC d dp bs j = true ↔
      ∀ i < bs.length, d.getD ((dp + (j + i)) % HTC) 0 = bs.getD i 0 := by
  induction bs with
  | nil => intro j; simp [matchesAt]
  | cons b rest ih =>
    intro j
    rw [matchesAt, Bool.and_eq_true, beq_iff_eq, ih (j + 1)]
    constructor
    · rintro ⟨h1, h2⟩ i hi
      rcases i with _ | k
      · simpa using h1
      · have := h2 k (by simpa using Nat.lt_of_succ_lt_succ hi)
        have heq : j + 1 + k = j + (k + 1) := by omega
        rw [heq] at this
        simpa using this
    · intro h
      refine ⟨by simpa using h 0 (by simp), ?_⟩
      intro k hk
      have := h (k + 1) (by simpa using Nat.succ_lt_succ hk)
      have heq : j + (k + 1) = j + 1 + k := by omega
      rw [heq] at this
      simpa using this


/-- Two lists of equal length with equal `getD` reads are equal. -/
theorem list_ext_getD (xs ys : List Nat) (hlen : xs.length = ys.length)
    (h : ∀ i < xs.length, xs.getD i 0 = ys.getD i 0) : xs = ys := by
  apply List.ext_getElem hlen
  intro n h1 h2
  rw [← List.getD_eq_getElem xs 0 h1, ← List.getD_eq_getElem ys 0 h2]
  exact h n h1

/-- Unfolding `layout` at a cons cell. -/
theorem layout_cons (HTC : Nat) (d : List Nat) (pos : Nat) (e : Bytes) (rest : List Bytes) :
    layout HTC d pos (e :: rest) ↔
      readLengthAt HTC d pos = e.length ∧
      (∀ j < e.length, d.getD ((pos + 2 + j) % HTC) 0 = e.getD j 0) ∧
      layout HTC d ((pos + entryTotalSize e.length) % HTC) rest :=
  Iff.rfl

/-- `usedSize` at a cons cell. -/
theorem usedSize_cons (e : Bytes) (rest : List Bytes) :
    usedSize (e :: rest) = entryTotalSize e.length + usedSize rest := by
  simp [usedSize]

/-- `layout` only looks at buffer positions inside the occupied window,
so agreeing buffers lay out the same entries. -/
theorem layout_congr (HTC : Nat) (es : List Bytes) :
    ∀ (d d' : List Nat) (pos : Nat), pos < HTC →
      (∀ y < usedSize es, d'.getD ((pos + y) % HTC) 0 = d.getD ((pos + y) % HTC) 0) →
      layout HTC d pos es → layout HTC d' pos es := by
  induction es with
  | nil => intro d d' pos _ _ _; trivial
  | cons e rest ih =>
    intro d d' pos hpos hcong hl
    rw [layout_cons] at hl ⊢
    have h0 : 0 < HTC := by omega
    have hu : usedSize (e :: rest) = entryTotalSize e.length + usedSize rest := usedSize_cons e rest
    have hpos0 : (pos + 0) % HTC = pos := by rw [Nat.add_zero, Nat.mod_eq_of_lt hpos]
    have hc0 : d'.getD pos 0 = d.getD pos 0 := by
      have := hcong 0 (by rw [hu]; simp only [entryTotalSize]; omega)
      rwa [hpos0] at this
    have hc1 : d'.getD ((pos + 1) % HTC) 0 = d.getD ((pos + 1) % HTC) 0 :=
      hcong 1 (by rw [hu]; simp only [entryTotalSize]; omega)
    refine ⟨?_, ?_, ?_⟩
    · rw [readLengthAt, hc0, hc1, ← readLengthAt]
      exact hl.1
    · intro j hj
      have heq : pos + 2 + j = pos + (2 + j) := by omega
      have := hcong (2 + j) (by rw [hu]; simp only [entryTotalSize]; omega)
      rw [heq, this, ← heq]
      exact hl.2.1 j hj
    · apply ih d d' _ (Nat.mod_lt _ h0) _ hl.2.2
      intro y hy
      rw [Nat.mod_add_mod]
      have heq : pos + entryTotalSize e.length + y = pos + (entryTotalSize e.length + y) := by
        omega
      rw [heq]
      exact hcong _ (by rw [hu]; omega)

/-- `layout` splits over append, the suffix starting where the prefix
ends. -/
theorem layout_append (HTC : Nat) (xs : List Bytes) :
    ∀ (ys : List Bytes) (d : List Nat) (pos : Nat), pos < HTC →
      (layout HTC d pos (xs ++ ys) ↔
        layout HTC d pos xs ∧ layout HTC d ((pos + usedSize xs) % HTC) ys) := by
  induction xs with
  | nil =>
    intro ys d pos hpos
    have : (pos + usedSize []) % HTC = pos := by
      simp [usedSize, Nat.mod_eq_of_lt hpos]
    rw [this]
    simp only [List.nil_append]
    exact ⟨fun h => ⟨trivial, h⟩, fun h => h.2⟩
  | cons x xs ih =>
    intro ys d pos hpos
    have h0 : 0 < HTC := by omega
    rw [List.cons_append, layout_cons, layout_cons, ih ys d _ (Nat.mod_lt _ h0)]
    have hP : ((pos + entryTotalSize x.length) % HTC + usedSize xs) % HTC =
        (pos + usedSize (x :: xs)) % HTC := by
      rw [Nat.mod_add_mod, usedSize_cons, Nat.add_assoc]
    rw [hP]
    tauto

/-- The entry loop of `calculate_used_space` totals the laid-out entry
sizes. -/
theorem usedLoop_eq (HTC : Nat) (es : List Bytes) :
    ∀ (d : List Nat) (pos : Nat), layout HTC d pos es →
      usedLoop HTC d es.length pos = usedSize es := by
  induction es with
  | nil => intro d pos _; simp [usedLoop, usedSize]
  | cons e rest ih =>
    intro d pos hl
    rw [layout_cons] at hl
    rw [List.length_cons, usedLoop, hl.1, usedSize_cons]
    congr 1
    apply ih
    rw [findNextEntryPos, hl.1]
    exact hl.2.2


/-- The entry loop of `is_duplicate` finds exactly the stored entries. -/
theorem dupLoop_iff (HTC : Nat) (bs : Bytes) (es : List Bytes) :
    ∀ (d : List Nat) (pos : Nat), pos < HTC → layout HTC d pos es →
      (dupLoop HTC d bs es.length pos = true ↔ bs ∈ es) := by
  induction es with
  | nil => intro d pos _ _; simp [dupLoop]
  | cons e rest ih =>
    intro d pos hpos hl
    rw [layout_cons] at hl
    have h0 : 0 < HTC := by omega
    have hcond : (readLengthAt HTC d pos = bs.length ∧
        matchesAt HTC d ((pos + 2) % HTC) bs 0 = true) ↔ bs = e := by
      constructor
      · rintro ⟨h1, h2⟩
        rw [matchesAt_iff] at h2
        have hbe : bs.length = e.length := by rw [← h1, hl.1]
        apply list_ext_getD bs e hbe
        intro i hi
        have hpos2 : ((pos + 2) % HTC + (0 + i)) % HTC = (pos + 2 + i) % HTC := by
          rw [Nat.mod_add_mod, Nat.zero_add]
        have := h2 i hi
        rw [hpos2] at this
        rw [← this]
        exact hl.2.1 i (hbe ▸ hi)
      · rintro rfl
        refine ⟨hl.1, ?_⟩
        rw [matchesAt_iff]
        intro i hi
        have hpos2 : ((pos + 2) % HTC + (0 + i)) % HTC = (pos + 2 + i) % HTC := by
          rw [Nat.mod_add_mod, Nat.zero_add]
        rw [hpos2]
        exact hl.2.1 i hi
    rw [List.length_cons, dupLoop]
    by_cases hc : readLengthAt HTC d pos = bs.length ∧ matchesAt HTC d ((pos + 2) % HTC) bs 0 = true
    · rw [if_pos hc]
      simp only [List.mem_cons]
      exact ⟨fun _ => Or.inl (hcond.mp hc), fun _ => trivial⟩
    · rw [if_neg hc]
      have hnext : findNextEntryPos HTC d pos = (pos + entryTotalSize e.length) % HTC := by
        rw [findNextEntryPos, hl.1]
      rw [hnext, ih d _ (Nat.mod_lt _ h0) hl.2.2]
      simp only [List.mem_cons]
      constructor
      · exact Or.inr
      · rintro (rfl | hm)
        · exact absurd (hcond.mpr rfl) hc
        · exact hm


/-- `calculate_used_space` computes the abstract used size. -/
theorem calcUsed_of_rep (HTC : Nat) (h : History) (es : List Bytes)
    (hrep : Rep HTC h es) : h.calculateUsedSpace HTC = usedSize es := by
  rw [History.calculateUsedSpace]
  by_cases hz : h.entrySize = 0
  · rw [if_pos hz]
    have hnil : es = [] := List.length_eq_zero.mp (by rw [← hrep.size]; exact hz)
    rw [hnil]
    simp [usedSize]
  · rw [if_neg hz, hrep.size]
    exact usedLoop_eq HTC es h.data h.entryOldest hrep.lay

/-- `is_duplicate` decides membership in the stored entry list. -/
theorem isDuplicate_iff (HTC : Nat) (h : History) (es : List Bytes) (bs : Bytes)
    (hrep : Rep HTC h es) (hne : es ≠ []) :
    (h.isDuplicate HTC bs = true ↔ bs ∈ es) := by
  rcases es with _ | ⟨e, rest⟩
  · exact absurd rfl hne
  · have h4 : e.length + 4 ≤ HTC := (hrep.lens e (by simp)).2.2
    have hpos : h.entryOldest < HTC := by
      rcases hrep.oldestLt with h1 | h1
      · exact h1
      · omega
    rw [History.isDuplicate, hrep.size]
    exact dupLoop_iff HTC bs (e :: rest) h.data h.entryOldest hpos hrep.lay

/-- `remove_oldest_entry` drops exactly the oldest stored entry. -/
theorem remove_rep (HTC : Nat) (h : History) (e : Bytes) (rest : List Bytes)
    (hrep : Rep HTC h (e :: rest)) : Rep HTC (h.removeOldestEntry HTC) rest := by
  have hsz : h.entrySize = rest.length + 1 := by rw [hrep.size]; rfl
  have h4 : e.length + 4 ≤ HTC := (hrep.lens e (by simp)).2.2
  have h0 : 0 < HTC := by omega
  have hpos : h.entryOldest < HTC := by
    rcases hrep.oldestLt with h1 | h1
    · exact h1
    · omega
  have hl := hrep.lay
  rw [layout_cons] at hl
  have hread : readLengthAt HTC h.data h.entryOldest = e.length := hl.1
  rw [History.removeOldestEntry, if_neg (by omega)]
  simp only [hread]
  rcases rest with _ | ⟨f, rest2⟩
  · rw [if_pos (by simp [hsz])]
    refine ⟨hrep.dataLen, by simp [hsz], trivial, by simp [usedSize], Or.inl h0, by simp [usedSize], ?_, ?_⟩
    · intro x hx; simp at hx
    · intro x hx; simp at hx
  · have hsz2 : ¬(h.entrySize - 1 = 0) := by rw [hsz]; simp
    have hrest : usedSize (f :: rest2) ≤ HTC := by
      have := hrep.usedLe
      rw [usedSize_cons] at this
      omega
    have hfields : ∀ ci : Nat,
        Rep HTC { data := h.data,
                  dataHead := h.dataHead,
                  entryOldest := (h.entryOldest + entryTotalSize e.length) % HTC,
                  entrySize := h.entrySize - 1,
                  currentIndex := ci } (f :: rest2) := by
      intro ci
      refine ⟨hrep.dataLen, by simp [hsz], hl.2.2, ?_, Or.inl (Nat.mod_lt _ h0), hrest, ?_, ?_⟩
      · show h.dataHead = ((h.entryOldest + entryTotalSize e.length) % HTC + usedSize (f :: rest2)) % HTC
        rw [Nat.mod_add_mod, Nat.add_assoc, ← usedSize_cons]
        exact hrep.headPos
      · intro x hx
        exact hrep.lens x (by simp [hx])
      · intro x hx
        exact hrep.bytesLt x (by simp [hx])
    rw [if_neg hsz2]
    split_ifs with hci
    · exact hfields _
    · exact hfields _


/-- The eviction loop of `push`, run with fuel `entry_size`, realises
the abstract `evictWhile` and ends with enough free space. -/
theorem evict_rep (HTC needed : Nat) (hn : needed ≤ HTC) :
    ∀ (es : List Bytes) (h : History), Rep HTC h es →
      Rep HTC (evictLoopF HTC es.length h (usedSize es) needed).1 (evictWhile HTC needed es) ∧
      (evictLoopF HTC es.length h (usedSize es) needed).2 = usedSize (evictWhile HTC needed es) ∧
      needed ≤ HTC - usedSize (evictWhile HTC needed es) := by
  intro es
  induction es with
  | nil =>
    intro h hrep
    refine ⟨hrep, rfl, ?_⟩
    show needed ≤ HTC - usedSize []
    simp only [usedSize, List.map_nil, List.sum_nil, Nat.sub_zero]
    exact hn
  | cons e rest ih =>
    intro h hrep
    have hl := hrep.lay
    rw [layout_cons] at hl
    have hread : readLengthAt HTC h.data h.entryOldest = e.length := hl.1
    by_cases hc : HTC - usedSize (e :: rest) < needed
    · have hstep : evictLoopF HTC (e :: rest).length h (usedSize (e :: rest)) needed =
          evictLoopF HTC rest.length (h.removeOldestEntry HTC) (usedSize rest) needed := by
        have harg : usedSize (e :: rest) -
            entryTotalSize (readLengthAt HTC h.data h.entryOldest) = usedSize rest := by
          rw [hread, usedSize_cons, entryTotalSize]
          omega
        rw [List.length_cons, evictLoopF, if_pos hc]
        dsimp only
        rw [harg]
      have hwhile : evictWhile HTC needed (e :: rest) = evictWhile HTC needed rest := by
        rw [evictWhile, if_pos hc]
      rw [hstep, hwhile]
      exact ih (h.removeOldestEntry HTC) (remove_rep HTC h e rest hrep)
    · have hstep : evictLoopF HTC (e :: rest).length h (usedSize (e :: rest)) needed =
          (h, usedSize (e :: rest)) := by
        rw [List.length_cons, evictLoopF, if_neg hc]
      have hwhile : evictWhile HTC needed (e :: rest) = e :: rest := by
        rw [evictWhile, if_neg hc]
      rw [hstep, hwhile]
      exact ⟨hrep, rfl, not_lt.mp hc⟩


/-- Writing a fitting entry at `data_head` extends the stored entry
list, preserving the representation invariant. -/
theorem push_write_rep (HTC : Nat) (h1 : History) (es1 : List Bytes) (bytes : Bytes)
    (d2 : List Nat) (wp2 : Nat)
    (hrep : Rep HTC h1 es1) (hlen1 : 0 < bytes.length) (hlen2 : bytes.length ≤ 65535)
    (hfit : usedSize es1 + (bytes.length + 4) ≤ HTC)
    (hbl : ∀ b ∈ bytes, b < 256)
    (hw : writeBytesLoop HTC (writeLengthAt HTC h1.data h1.dataHead bytes.length)
        ((h1.dataHead + 2) % HTC) bytes = (d2, wp2)) :
    Rep HTC
      { data := writeLengthAt HTC d2 wp2 bytes.length,
        dataHead := (wp2 + 2) % HTC,
        entryOldest := h1.entryOldest,
        entrySize := h1.entrySize + 1,
        currentIndex := h1.entrySize } (es1 ++ [bytes]) := by
  have h0 : 0 < HTC := by omega
  have hule : usedSize es1 ≤ HTC := hrep.usedLe
  have hwp : h1.dataHead = (h1.entryOldest + usedSize es1) % HTC := hrep.headPos
  have hwplt : h1.dataHead < HTC := by rw [hwp]; exact Nat.mod_lt _ h0
  have hpos0 : h1.entryOldest < HTC := by
    rcases hrep.oldestLt with hx | hx
    · exact hx
    · omega
  have hd1len : (writeLengthAt HTC h1.data h1.dataHead bytes.length).length = HTC := by
    rw [writeLengthAt_length, hrep.dataLen]
  have hwp2 : wp2 = (h1.dataHead + (2 + bytes.length)) % HTC := by
    have hp := writeBytesLoop_pos HTC bytes
      (writeLengthAt HTC h1.data h1.dataHead bytes.length)
      ((h1.dataHead + 2) % HTC) (Nat.mod_lt _ h0)
    rw [hw, Nat.mod_add_mod] at hp
    dsimp only at hp
    rw [hp]
    congr 1
    omega
  have hd2len : d2.length = HTC := by
    have hp := writeBytesLoop_length HTC bytes
      (writeLengthAt HTC h1.data h1.dataHead bytes.length) ((h1.dataHead + 2) % HTC)
    rw [hw] at hp
    rw [show d2 = (d2, wp2).1 from rfl, hp, hd1len]
  -- positions touched by the three writes are `(data_head + x) % HTC`
  -- for offsets `x < bytes.length + 4`; everything else is untouched.
  have huntouched : ∀ q, (∀ x, x < bytes.length + 4 → q ≠ (h1.dataHead + x) % HTC) →
      (writeLengthAt HTC d2 wp2 bytes.length).getD q 0 = h1.data.getD q 0 := by
    intro q hq
    have hq0 : q ≠ h1.dataHead := by
      have := hq 0 (by omega)
      rwa [Nat.add_zero, Nat.mod_eq_of_lt hwplt] at this
    have hq1 : q ≠ (h1.dataHead + 1) % HTC := hq 1 (by omega)
    have hq2 : q ≠ wp2 := by
      rw [hwp2]
      exact hq (2 + bytes.length) (by omega)
    have hq3 : q ≠ (wp2 + 1) % HTC := by
      rw [hwp2, Nat.mod_add_mod]
      have heq : h1.dataHead + (2 + bytes.length) + 1 = h1.dataHead + (3 + bytes.length) := by
        omega
      rw [heq]
      exact hq (3 + bytes.length) (by omega)
    rw [getD_writeLengthAt_ne _ _ _ _ _ hq2 hq3]
    have hmid := writeBytesLoop_getD_ne HTC bytes
      (writeLengthAt HTC h1.data h1.dataHead bytes.length)
      ((h1.dataHead + 2) % HTC) q (Nat.mod_lt _ h0) ?_
    · rw [hw] at hmid
      rw [show d2 = (d2, wp2).1 from rfl, hmid,
        getD_writeLengthAt_ne _ _ _ _ _ hq0 hq1]
    · intro i hi
      rw [Nat.mod_add_mod]
      have heq : h1.dataHead + 2 + i = h1.dataHead + (2 + i) := by omega
      rw [heq]
      exact hq (2 + i) (by omega)
  -- the leading length of the new entry reads back
  have hread0 : (writeLengthAt HTC d2 wp2 bytes.length).getD h1.dataHead 0 =
      (bytes.length >>> 8) % 256 := by
    have hne2 : h1.dataHead ≠ wp2 := by
      rw [hwp2]
      have := mod_shift_ne HTC h1.dataHead 0 (2 + bytes.length) h0 (by omega) (by omega)
      rwa [Nat.add_zero, Nat.mod_eq_of_lt hwplt] at this
    have hne3 : h1.dataHead ≠ (wp2 + 1) % HTC := by
      rw [hwp2, Nat.mod_add_mod]
      have heq : h1.dataHead + (2 + bytes.length) + 1 = h1.dataHead + (3 + bytes.length) := by
        omega
      rw [heq]
      have := mod_shift_ne HTC h1.dataHead 0 (3 + bytes.length) h0 (by omega) (by omega)
      rwa [Nat.add_zero, Nat.mod_eq_of_lt hwplt] at this
    rw [getD_writeLengthAt_ne _ _ _ _ _ hne2 hne3]
    have hmid := writeBytesLoop_getD_ne HTC bytes
      (writeLengthAt HTC h1.data h1.dataHead bytes.length)
      ((h1.dataHead + 2) % HTC) h1.dataHead (Nat.mod_lt _ h0) ?_
    · rw [hw] at hmid
      have hset : (writeLengthAt HTC h1.data h1.dataHead bytes.length).getD h1.dataHead 0 =
          (bytes.length >>> 8) % 256 := by
        rw [writeLengthAt]
        have hne10 : (h1.dataHead + 1) % HTC ≠ h1.dataHead := by
          have h9 := mod_shift_ne HTC h1.dataHead 1 0 (by omega) h0 (by omega)
          rw [Nat.add_zero] at h9
          have h10 : (h1.dataHead + 1) % HTC ≠ h1.dataHead % HTC := h9
          rwa [Nat.mod_eq_of_lt hwplt] at h10
        rw [getD_set_ne _ _ _ _ hne10]
        exact getD_set_self _ _ _ (by rw [hrep.dataLen]; exact hwplt)
      rw [show d2 = (d2, wp2).1 from rfl, hmid, hset]
    · intro i hi
      rw [Nat.mod_add_mod]
      have heq : h1.dataHead + 2 + i = h1.dataHead + (2 + i) := by omega
      rw [heq]
      have := mod_shift_ne HTC h1.dataHead 0 (2 + i) h0 (by omega) (by omega)
      rwa [Nat.add_zero, Nat.mod_eq_of_lt hwplt] at this
  have hread1 : (writeLengthAt HTC d2 wp2 bytes.length).getD ((h1.dataHead + 1) % HTC) 0 =
      bytes.length % 256 := by
    have hne2 : (h1.dataHead + 1) % HTC ≠ wp2 := by
      rw [hwp2]
      exact mod_shift_ne HTC h1.dataHead 1 (2 + bytes.length) (by omega) (by omega) (by omega)
    have hne3 : (h1.dataHead + 1) % HTC ≠ (wp2 + 1) % HTC := by
      rw [hwp2, Nat.mod_add_mod]
      have heq : h1.dataHead + (2 + bytes.length) + 1 = h1.dataHead + (3 + bytes.length) := by
        omega
      rw [heq]
      exact mod_shift_ne HTC h1.dataHead 1 (3 + bytes.length) (by omega) (by omega) (by omega)
    rw [getD_writeLengthAt_ne _ _ _ _ _ hne2 hne3]
    have hmid := writeBytesLoop_getD_ne HTC bytes
      (writeLengthAt HTC h1.data h1.dataHead bytes.length)
      ((h1.dataHead + 2) % HTC) ((h1.dataHead + 1) % HTC) (Nat.mod_lt _ h0) ?_
    · rw [hw] at hmid
      have hset : (writeLengthAt HTC h1.data h1.dataHead bytes.length).getD
          ((h1.dataHead + 1) % HTC) 0 = bytes.length % 256 := by
        rw [writeLengthAt]
        exact getD_set_self _ _ _
          (by rw [List.length_set, hrep.dataLen]; exact Nat.mod_lt _ h0)
      rw [show d2 = (d2, wp2).1 from rfl, hmid, hset]
    · intro i hi
      rw [Nat.mod_add_mod]
      have heq : h1.dataHead + 2 + i = h1.dataHead + (2 + i) := by omega
      rw [heq]
      exact mod_shift_ne HTC h1.dataHead 1 (2 + i) (by omega) (by omega) (by omega)
  have hreadnew : readLengthAt HTC (writeLengthAt HTC d2 wp2 bytes.length) h1.dataHead =
      bytes.length := by
    rw [readLengthAt, hread0, hread1, read_write_len _ hlen2]
  -- the data of the new entry reads back
  have hdata : ∀ j < bytes.length,
      (writeLengthAt HTC d2 wp2 bytes.length).getD ((h1.dataHead + 2 + j) % HTC) 0 =
        bytes.getD j 0 := by
    intro j hj
    have heqj : h1.dataHead + 2 + j = h1.dataHead + (2 + j) := by omega
    have hne2 : (h1.dataHead + 2 + j) % HTC ≠ wp2 := by
      rw [heqj, hwp2]
      exact mod_shift_ne HTC h1.dataHead (2 + j) (2 + bytes.length)
        (by omega) (by omega) (by omega)
    have hne3 : (h1.dataHead + 2 + j) % HTC ≠ (wp2 + 1) % HTC := by
      rw [heqj, hwp2, Nat.mod_add_mod]
      have heq : h1.dataHead + (2 + bytes.length) + 1 = h1.dataHead + (3 + bytes.length) := by
        omega
      rw [heq]
      exact mod_shift_ne HTC h1.dataHead (2 + j) (3 + bytes.length)
        (by omega) (by omega) (by omega)
    rw [getD_writeLengthAt_ne _ _ _ _ _ hne2 hne3]
    have hmid := writeBytesLoop_getD_read HTC bytes
      (writeLengthAt HTC h1.data h1.dataHead bytes.length)
      ((h1.dataHead + 2) % HTC) (Nat.mod_lt _ h0) (by omega) hd1len j hj
    rw [hw, Nat.mod_add_mod] at hmid
    rw [show d2 = (d2, wp2).1 from rfl, hmid]
  refine ⟨?_, ?_, ?_, ?_, ?_, ?_, ?_, ?_⟩
  · rw [writeLengthAt_length, hd2len]
  · simp [hrep.size]
  · show layout HTC (writeLengthAt HTC d2 wp2 bytes.length) h1.entryOldest (es1 ++ [bytes])
    rw [layout_append HTC es1 [bytes] _ h1.entryOldest hpos0]
    constructor
    · apply layout_congr HTC es1 h1.data _ h1.entryOldest hpos0 _ hrep.lay
      intro y hy
      apply huntouched
      intro x hx
      rw [hwp, Nat.mod_add_mod]
      have heq : h1.entryOldest + usedSize es1 + x = h1.entryOldest + (usedSize es1 + x) := by
        omega
      rw [heq]
      exact mod_shift_ne HTC h1.entryOldest y (usedSize es1 + x)
        (by omega) (by omega) (by omega)
    · rw [← hwp, layout_cons]
      exact ⟨hreadnew, hdata, trivial⟩
  · show (wp2 + 2) % HTC = (h1.entryOldest + usedSize (es1 ++ [bytes])) % HTC
    have hu1 : usedSize (es1 ++ [bytes]) = usedSize es1 + (bytes.length + 4) := by
      rw [usedSize_append, usedSize_cons]
      simp [usedSize, entryTotalSize]
    rw [hwp2, Nat.mod_add_mod, hwp, hu1]
    have ha : (h1.entryOldest + usedSize es1) % HTC + (2 + bytes.length) + 2 =
        (h1.entryOldest + usedSize es1) % HTC + (bytes.length + 4) := by omega
    rw [ha, Nat.mod_add_mod]
    congr 1
    omega
  · exact Or.inl hpos0
  · rw [usedSize_append, usedSize_cons]
    have hz : usedSize ([] : List Bytes) = 0 := by simp [usedSize]
    rw [hz, entryTotalSize]
    omega
  · intro x hx
    rcases List.mem_append.mp hx with hx1 | hx1
    · exact hrep.lens x hx1
    · rw [List.mem_singleton] at hx1
      subst hx1
      exact ⟨hlen1, hlen2, by rw [entryTotalSize]; omega⟩
  · intro x hx
    rcases List.mem_append.mp hx with hx1 | hx1
    · exact hrep.bytesLt x hx1
    · rw [List.mem_singleton] at hx1
      subst hx1
      exact hbl


/-- Claim C4: for every input string and every history state satisfying
the representation invariant, `History::push` returns `false` with the
state (stored entries, entry count, navigation index) unchanged iff the
whitespace-trimmed input is empty, longer than 65535 bytes, needs more
than `HTC` bytes (`4 + length`), or matches a stored entry
byte-for-byte; in all other cases it returns `true` and stores the
trimmed entry, evicting oldest entries as needed. -/
theorem C4_history_push (HTC : Nat) (h : History) (es : List Bytes) (s : Bytes)
    (hrep : Rep HTC h es) (hs : ∀ b ∈ s, b < 256) :
    ((h.push HTC s).1 = false ↔
        (trimBytes s).length = 0 ∨ (trimBytes s).length > 65535 ∨
        entryTotalSize (trimBytes s).length > HTC ∨ trimBytes s ∈ es) ∧
    ((h.push HTC s).1 = false → (h.push HTC s).2 = h) ∧
    ((h.push HTC s).1 = true →
        Rep HTC (h.push HTC s).2
          (evictWhile HTC (entryTotalSize (trimBytes s).length) es ++ [trimBytes s])) := by
  by_cases h0 : (trimBytes s).length = 0 ∨ (trimBytes s).length > 65535
  · have hpush : h.push HTC s = (false, h) := by
      simp only [History.push]
      rw [if_pos h0]
    refine ⟨?_, fun _ => by rw [hpush], fun hT => ?_⟩
    · rw [hpush]
      exact iff_of_true rfl (by tauto)
    · rw [hpush] at hT
      simp at hT
  by_cases h1 : entryTotalSize (trimBytes s).length > HTC
  · have hpush : h.push HTC s = (false, h) := by
      simp only [History.push]
      rw [if_neg h0, if_pos h1]
    refine ⟨?_, fun _ => by rw [hpush], fun hT => ?_⟩
    · rw [hpush]
      exact iff_of_true rfl (by tauto)
    · rw [hpush] at hT
      simp at hT
  by_cases h2 : trimBytes s ∈ es
  · have hne : es ≠ [] := List.ne_nil_of_mem h2
    have hszpos : h.entrySize > 0 := by
      rw [hrep.size]
      exact List.length_pos.mpr hne
    have hdup : h.isDuplicate HTC (trimBytes s) = true :=
      (isDuplicate_iff HTC h es (trimBytes s) hrep hne).mpr h2
    have hpush : h.push HTC s = (false, h) := by
      simp only [History.push]
      rw [if_neg h0, if_neg h1, if_pos ⟨hszpos, hdup⟩]
    refine ⟨?_, fun _ => by rw [hpush], fun hT => ?_⟩
    · rw [hpush]
      exact iff_of_true rfl (by tauto)
    · rw [hpush] at hT
      simp at hT
  -- success path
  have hAB := not_or.mp h0
  have hlen1 : 0 < (trimBytes s).length := Nat.pos_of_ne_zero hAB.1
  have hlen2 : (trimBytes s).length ≤ 65535 := not_lt.mp hAB.2
  have hneed : entryTotalSize (trimBytes s).length ≤ HTC := not_lt.mp h1
  have hnodup : ¬(h.entrySize > 0 ∧ h.isDuplicate HTC (trimBytes s) = true) := by
    rintro ⟨hpos, hdup⟩
    have hne : es ≠ [] := by
      intro hnil
      rw [hrep.size, hnil] at hpos
      simp at hpos
    exact h2 ((isDuplicate_iff HTC h es (trimBytes s) hrep hne).mp hdup)
  have hcalc : h.calculateUsedSpace HTC = usedSize es := calcUsed_of_rep HTC h es hrep
  rcases hev1 : evictLoopF HTC es.length h (usedSize es)
      (entryTotalSize (trimBytes s).length) with ⟨hh1, uu1⟩
  have hev := evict_rep HTC (entryTotalSize (trimBytes s).length) hneed es h hrep
  rw [hev1] at hev
  obtain ⟨hevRep, hevUsed, hevFree⟩ := hev
  have hfree : ¬(HTC - uu1 < entryTotalSize (trimBytes s).length) := by
    have : uu1 = usedSize (evictWhile HTC (entryTotalSize (trimBytes s).length) es) := hevUsed
    omega
  rcases hw : writeBytesLoop HTC (writeLengthAt HTC hh1.data hh1.dataHead (trimBytes s).length)
      ((hh1.dataHead + 2) % HTC) (trimBytes s) with ⟨d2, wp2⟩
  have hpush : h.push HTC s =
      (true, { data := writeLengthAt HTC d2 wp2 (trimBytes s).length,
               dataHead := (wp2 + 2) % HTC,
               entryOldest := hh1.entryOldest,
               entrySize := hh1.entrySize + 1,
               currentIndex := hh1.entrySize }) := by
    simp only [History.push]
    rw [if_neg h0, if_neg h1, if_neg hnodup, hcalc, hrep.size, hev1]
    dsimp only
    rw [if_neg hfree, hw]
  have hfit : usedSize (evictWhile HTC (entryTotalSize (trimBytes s).length) es) +
      ((trimBytes s).length + 4) ≤ HTC := by
    have he : entryTotalSize (trimBytes s).length = (trimBytes s).length + 4 := rfl
    have hule := hevRep.usedLe
    omega
  have hbl : ∀ b ∈ trimBytes s, b < 256 := fun b hb => hs b (trimBytes_subset s b hb)
  refine ⟨?_, fun hF => ?_, fun _ => ?_⟩
  · rw [hpush]
    refine iff_of_false (by simp) ?_
    push_neg
    exact ⟨hAB.1, not_lt.mp hAB.2, hneed, h2⟩
  · rw [hpush] at hF
    simp at hF
  · rw [hpush]
    exact push_write_rep HTC hh1 (evictWhile HTC (entryTotalSize (trimBytes s).length) es)
      (trimBytes s) d2 wp2 hevRep hlen1 hlen2 hfit hbl hw


/-- Witness for `C4_history_push`: pushing `ab` into an empty 16-byte
history. -/
theorem C4_history_push_witness :
    (((History.new 16).push 16 [97, 98]).1 = false ↔
        (trimBytes [97, 98]).length = 0 ∨ (trimBytes [97, 98]).length > 65535 ∨
        entryTotalSize (trimBytes [97, 98]).length > 16 ∨
        trimBytes [97, 98] ∈ ([] : List Bytes)) ∧
    (((History.new 16).push 16 [97, 98]).1 = false →
        ((History.new 16).push 16 [97, 98]).2 = History.new 16) ∧
    (((History.new 16).push 16 [97, 98]).1 = true →
        Rep 16 ((History.new 16).push 16 [97, 98]).2
          (evictWhile 16 (entryTotalSize (trimBytes [97, 98]).length) [] ++
            [trimBytes [97, 98]])) :=
  C4_history_push 16 (History.new 16) [] [97, 98]
    ⟨by decide, rfl, trivial, by decide, Or.inl (by decide), by decide, by simp, by simp⟩
    (by decide)

end UShell
